import Mathlib

/-!
Verification of the `swb` static-website builder (src/main.go).

The development shallowly embeds the core of `main.go`:

* path/extension arithmetic (`filepath.Ext`, `strings.TrimSuffix`, the
  src-root/dst-root prefix exchange) — modelled on relative paths, i.e. a
  path is the list of its segments below the tree root, and the
  `filepath.Join(root2, strings.TrimPrefix(p, root1))` mapping becomes the
  identity on relative paths;
* the per-entry decisions of `clean` and of the `build` walk;
* the walks themselves (`filepath.WalkDir` visits entries in lexical
  order; deleting a directory inside the walk makes the subsequent
  `os.ReadDir` of that directory fail, which `WalkDir` reports through a
  second callback invocation whose non-nil error the callback returns,
  aborting the walk);
* the template expansion of `buildPage` (the Go regexp
  `(?ms)^\s*%\x7b(.*?)(?ms)^\x7d%` is embedded as an explicit scanner over the
  character list, with the external command modelled as an oracle from the
  command body to either captured standard output or an error description);
* the `exec.Command(cmdArgs[0], cmdArgs[len(config.RunCmd)-1:]...)` argv
  computation of `buildPage`;
* the orchestration of `main` (per-site `build`, which first calls
  `clean` discarding its result, then walks the source tree).

Filesystem state is a list of (relative path, metadata) bindings; `os.Stat`
on this closed world either finds the entry or reports non-existence.  Where
a claim is about other I/O failures, the walk takes explicit fault sets
(paths whose destination `os.Stat` fails with a non-ENOENT error, paths
whose `os.WriteFile` fails) and the per-entry decision functions take a
three-valued stat outcome, so that the error paths of the Go code are
represented faithfully.
-/

namespace Swb

/-! ## Characters and names

`filepath.Ext` returns the suffix of the final path element beginning at its
final dot (empty if there is no dot); `strings.TrimSuffix` drops a suffix
when present.  Names are modelled as `String`, via their character lists. -/

/-- The character class `\s` of Go's regexp package (RE2, Perl class,
exactly `[\t\n\f\r ]`): space, tab, newline, form feed, carriage return —
and nothing else; in particular vertical tab is not matched. -/
def isWs (c : Char) : Bool :=
  c = ' ' || c = '\t' || c = '\n' || c = '\x0c' || c = '\r'

/-- Characters of the extension of a reversed character list: everything up
to and including the first dot of the reversed list (i.e. the last dot of
the name), reversed back.  Empty if there is no dot. -/
def extRev : List Char → List Char
  | [] => []
  | c :: cs => if c = '.' then ['.'] else
      match extRev cs with
      | [] => []
      | e => e ++ [c]

/-- `filepath.Ext` on a single path element. -/
def extOf (s : String) : String :=
  String.mk (extRev s.data.reverse)

/-- `strings.TrimSuffix s suf`. -/
def trimSuffix (s suf : String) : String :=
  if suf.data.isSuffixOf s.data then
    String.mk (s.data.take (s.data.length - suf.data.length))
  else s

/-! ## The argv computation of `buildPage`

`buildPage` builds `cmdArgs := append(config.RunCmd, cmdStr)` and then
spawns `exec.Command(cmdArgs[0], cmdArgs[len(config.RunCmd)-1:]...)`;
`exec.Command(name, arg...)` gives the child the argument vector
`[name] ++ arg`. -/

/-- The argument vector of the child process spawned for one command block,
for a `RunCmd` of positive length. -/
def spawnArgv (runCmd : List String) (cmdStr : String) : List String :=
  let cmdArgs := runCmd ++ [cmdStr]
  cmdArgs.take 1 ++ cmdArgs.drop (runCmd.length - 1)

/-! ## Filesystem model -/

/-- A path relative to a tree root: the list of path segments. -/
abbrev Path := List String

/-- Metadata of one filesystem entry, as read through `fs.DirEntry.Info` /
`os.Stat`: kind, inode number (`syscall.Stat_t.Ino`) and modification time.
Hard links share the inode and hence the modification time. -/
inductive Meta where
  | dir (ino : Nat) (mtime : Nat)
  | file (ino : Nat) (mtime : Nat)
deriving DecidableEq, Repr

def Meta.ino : Meta → Nat
  | .dir i _ => i
  | .file i _ => i

def Meta.mtime : Meta → Nat
  | .dir _ t => t
  | .file _ t => t

def Meta.isDir : Meta → Bool
  | .dir _ _ => true
  | .file _ _ => false

def Meta.isFile : Meta → Bool
  | .dir _ _ => false
  | .file _ _ => true

/-- One file tree: the entries strictly below the root, keyed by relative
path. -/
abbrev Fs := List (Path × Meta)

/-- `os.Stat` on the closed-world tree. -/
def fsGet (fs : Fs) (p : Path) : Option Meta :=
  match fs.find? (fun e => e.1 = p) with
  | some e => some e.2
  | none => none

/-- Replace the binding at `p` (in place — `os.WriteFile` truncates the
existing entry), or add it. -/
def fsSet (fs : Fs) (p : Path) (m : Meta) : Fs :=
  match fs with
  | [] => [(p, m)]
  | e :: rest => if e.1 = p then (p, m) :: rest else e :: fsSet rest p m

/-- `os.RemoveAll p`: remove the entry at `p` and everything below it. -/
def fsRemoveTree (fs : Fs) (p : Path) : Fs :=
  fs.filter (fun e => ¬ p <+: e.1)

/-- The result of an `os.Stat` call when arbitrary I/O errors are possible:
success, `ErrNotExist`, or any other error. -/
inductive StatRes where
  | ok (m : Meta)
  | enoent
  | eother
deriving DecidableEq, Repr

/-- Last segment of a path (the file name `filepath.Ext` inspects). -/
def lastName : Path → String
  | [] => ""
  | [a] => a
  | _ :: r => lastName r

/-- Rewrite the last segment of a path. -/
def mapLast (f : String → String) : Path → Path
  | [] => []
  | [a] => [f a]
  | a :: r => a :: mapLast f r

/-! ## Configuration

`Config.ext` is `config.Builder.Ext`; `tplOk` records whether
`os.ReadFile(site.TplPath)` succeeds (the template file is a fixed external
input of a site, read identically for every page). -/

structure Config where
  ext : String
  tplOk : Bool
deriving DecidableEq, Repr

/-! ## The per-entry decisions of `clean`

`clean` maps a destination entry back to its source path: for a file whose
extension is `".html"` it strips `".html"` and appends `config.Builder.Ext`,
otherwise the relative path is unchanged (directories are always mapped
unchanged).  The decision functions below take the source `os.Stat` outcome
explicitly; `Option.none` models the nil-pointer dereference the Go code
performs when the stat fails with an error other than `ErrNotExist`
(`srcInfo.IsDir()` resp. `srcStat.Ino` are read from a nil value). -/

/-- Decision of `clean` for a destination directory, given the stat outcome
of the mapped source path: `some true` = delete (recursively), `some false`
= keep, `none` = nil-pointer dereference. -/
def cleanDirDecide (srcRes : StatRes) : Option Bool :=
  match srcRes with
  | .enoent => some true
  | .ok m => some (¬ m.isDir)
  | .eother => none

/-- Decision of `clean` for a destination non-directory named `name` with
inode `dstIno`, given the stat outcome of the mapped source path. -/
def cleanFileDecide (name : String) (srcRes : StatRes) (dstIno : Nat) :
    Option Bool :=
  match srcRes with
  | .enoent => some true
  | .ok m => some (extOf name ≠ ".html" ∧ m.ino ≠ dstIno)
  | .eother => if extOf name = ".html" then some false else none

/-- The mapped source path of a destination non-directory entry. -/
def cleanEq (cfg : Config) (p : Path) : Path :=
  if extOf (lastName p) = ".html" then
    mapLast (fun n => trimSuffix n ".html" ++ cfg.ext) p
  else p

/-! ## The `clean` walk

`filepath.WalkDir` visits entries in lexical order (each directory's
entries sorted by name, parents before children).  On this closed world the
per-entry stat outcomes are `ok`/`enoent`, so the walk body never hits the
nil dereference; its actions are: keep, delete a file (`- path`), or delete
a directory subtree (`- path/*`).  After the callback deletes a directory
and returns nil, `WalkDir` calls `os.ReadDir` on the vanished directory,
reports the resulting error through a second callback invocation, and the
callback returns that error, aborting the whole walk. -/

inductive CleanAct where
  | keep
  | delFile
  | delTree
deriving DecidableEq, Repr

/-- The per-entry decision of `clean` on the closed world. -/
def cleanDecide (cfg : Config) (src : Fs) (p : Path) (m : Meta) : CleanAct :=
  match m with
  | .dir _ _ =>
    match fsGet src p with
    | some sm => if sm.isDir then .keep else .delTree
    | none => .delTree
  | .file dstIno _ =>
    match fsGet src (cleanEq cfg p) with
    | some sm =>
        if extOf (lastName p) ≠ ".html" ∧ sm.ino ≠ dstIno then .delFile
        else .keep
    | none => .delFile

inductive Err where
  | readDirFail
  | notDir
  | tplRead
  | removeFail
deriving DecidableEq, Repr

inductive Event where
  | create (p : Path)
  | update (p : Path)
  | delFile (p : Path)
  | delTree (p : Path)
deriving DecidableEq, Repr

/-- The body of `clean`'s walk over a list of destination entries: returns
the surviving entries, the reported deletions, and the error (if any) with
which the walk aborted. -/
def cleanFold (cfg : Config) (src : Fs) :
    List (Path × Meta) → Fs × List Event × Option Err
  | [] => ([], [], none)
  | (p, m) :: rest =>
    match cleanDecide cfg src p m with
    | .keep =>
        let r := cleanFold cfg src rest
        ((p, m) :: r.1, r.2)
    | .delFile =>
        let r := cleanFold cfg src rest
        (r.1, .delFile p :: r.2.1, r.2.2)
    | .delTree =>
        (rest.filter (fun e => ¬ p <+: e.1), [.delTree p], some .readDirFail)

/-- Byte-wise comparison of file names (the order in which `os.ReadDir`
returns a directory's entries). -/
def strLtB : List Char → List Char → Bool
  | [], [] => false
  | [], _ :: _ => true
  | _ :: _, [] => false
  | a :: as, b :: bs =>
    if a.toNat = b.toNat then strLtB as bs else decide (a.toNat < b.toNat)

/-- Lexical order on relative paths: the order in which `filepath.WalkDir`
visits the entries (parents before children, siblings by name). -/
def pathLe : Path → Path → Bool
  | [], _ => true
  | _ :: _, [] => false
  | a :: as, b :: bs => if a = b then pathLe as bs else strLtB a.data b.data

/-- Insertion sort by `pathLe` (the visiting order of the walks). -/
def sortPaths (l : List (Path × Meta)) : List (Path × Meta) :=
  l.foldr insertSorted []
where
  insertSorted (e : Path × Meta) :
      List (Path × Meta) → List (Path × Meta)
    | [] => [e]
    | x :: xs =>
      if pathLe e.1 x.1 then e :: x :: xs else x :: insertSorted e xs

/-- `config.clean(site)`: walk the destination tree in lexical order. -/
def clean (cfg : Config) (src dst : Fs) : Fs × List Event × Option Err :=
  cleanFold cfg src (sortPaths dst)

/-! ## The `build` walk

For each source entry: a directory is mirrored with `os.MkdirAll`; a file
whose extension equals `config.Builder.Ext` is rebuilt through `buildPage`
when its mapped `".html"` destination is absent or strictly older; any
other file is mirrored as a hard link when absent, or removed and re-linked
when the source is strictly newer.  The walk state carries the destination
tree, the next fresh inode number (for directories and written documents),
and the emitted report lines.

Faithful error behaviour: a destination `os.Stat` that fails with an error
other than `ErrNotExist` (modelled by the `faults` set) makes *neither*
branch of the `if`/`else if` chain fire — the entry is silently skipped;
`buildPage` ignores the error of `os.WriteFile` (modelled by the `wfaults`
set: the write is lost but `buildPage` still returns nil and the `+`/`^`
line is still printed); `os.MkdirAll` over an existing file and `os.Remove`
of a non-empty directory fail and abort the walk. -/

structure BState where
  fs : Fs
  nextIno : Nat
  evs : List Event
deriving Repr

/-- Destination stat with injected non-ENOENT failures. -/
def statDst (fs : Fs) (faults : List Path) (p : Path) : StatRes :=
  if p ∈ faults then .eother
  else
    match fsGet fs p with
    | some m => .ok m
    | none => .enoent

/-- `os.MkdirAll` for the mapped directory: create every missing prefix as
a directory; fail if some prefix exists as a file. -/
def mkdirAll (now : Nat) (st : BState) (p : Path) : Except Err BState :=
  go st ((List.range p.length).map (fun i => p.take (i + 1)))
where
  go (st : BState) : List Path → Except Err BState
    | [] => .ok st
    | q :: qs =>
      match fsGet st.fs q with
      | some (.dir _ _) => go st qs
      | some (.file _ _) => .error .notDir
      | none =>
          go { st with
                fs := fsSet st.fs q (.dir st.nextIno now),
                nextIno := st.nextIno + 1 } qs

/-- `os.WriteFile dst` for a new document: fresh inode, mtime `now`. -/
def writeNew (now : Nat) (st : BState) (p : Path) : BState :=
  { st with
      fs := fsSet st.fs p (.file st.nextIno now),
      nextIno := st.nextIno + 1 }

/-- `os.WriteFile dst` over an existing entry: truncation keeps the inode
and stamps mtime `now`; writing over a directory fails, and `buildPage`
ignores that failure, so the tree is unchanged. -/
def writeOver (now : Nat) (st : BState) (p : Path) (old : Meta) : BState :=
  match old with
  | .file i _ => { st with fs := fsSet st.fs p (.file i now) }
  | .dir _ _ => st

/-- The destination path of a source file entry named by the walk. -/
def buildEq (cfg : Config) (p : Path) : Path :=
  let ext := extOf (lastName p)
  if ext = cfg.ext then mapLast (fun n => trimSuffix n ext ++ ".html") p
  else p

/-- The body of `build`'s walk callback for one source entry. -/
def buildStep (cfg : Config) (now : Nat) (faults wfaults : List Path)
    (st : BState) : Path × Meta → Except (Err × BState) BState
  | (p, .dir _ _) =>
    match mkdirAll now st p with
    | .ok st2 => .ok st2
    | .error e => .error (e, st)
  | (p, .file sIno sM) =>
    let ext := extOf (lastName p)
    if ext = cfg.ext then
      let eq := buildEq cfg p
      match statDst st.fs faults eq with
      | .enoent =>
          if cfg.tplOk then
            let st2 := if eq ∈ wfaults then st else writeNew now st eq
            .ok { st2 with evs := st2.evs ++ [.create eq] }
          else .error (.tplRead, st)
      | .ok dm =>
          if sM > dm.mtime then
            if cfg.tplOk then
              let st2 := if eq ∈ wfaults then st else writeOver now st eq dm
              .ok { st2 with evs := st2.evs ++ [.update eq] }
            else .error (.tplRead, st)
          else .ok st
      | .eother => .ok st
    else
      match statDst st.fs faults p with
      | .enoent =>
          .ok { st with
                  fs := fsSet st.fs p (.file sIno sM),
                  evs := st.evs ++ [.create p] }
      | .ok dm =>
          if sM > dm.mtime then
            if dm.isDir ∧ (st.fs.find? (fun e => p <+: e.1 ∧ e.1 ≠ p)).isSome
            then .error (.removeFail, st)
            else
              .ok { st with
                      fs := fsSet (st.fs.filter (fun e => e.1 ≠ p)) p
                              (.file sIno sM),
                      evs := st.evs ++ [.update p] }
          else .ok st
      | .eother => .ok st

/-- The walk over the source entries, aborting on the first error. -/
def buildFold (cfg : Config) (now : Nat) (faults wfaults : List Path) :
    List (Path × Meta) → BState → BState × Option Err
  | [], st => (st, none)
  | e :: rest, st =>
    match buildStep cfg now faults wfaults st e with
    | .ok st2 => buildFold cfg now faults wfaults rest st2
    | .error (er, st2) => (st2, some er)

/-- Largest inode number in use, for generating fresh ones. -/
def maxIno (fs : Fs) : Nat :=
  fs.foldr (fun e acc => max e.2.ino acc) 0

/-- `config.build(site)`: run `clean` (its return value is discarded) and
then walk the source tree over the cleaned destination.  Returns the final
destination tree, the report lines of both phases, and `build`'s error. -/
def build (cfg : Config) (now : Nat) (faults wfaults : List Path)
    (src dst : Fs) : Fs × List Event × Option Err :=
  let c := clean cfg src dst
  let r := buildFold cfg now faults wfaults (sortPaths src)
             ⟨c.1, max (maxIno src) (maxIno c.1) + 1, []⟩
  (r.1.fs, c.2.1 ++ r.1.evs, r.2)

/-- The site loop of `main`: `config.build(site)` per site, `log.Fatalf`
terminating the whole run on the first site whose `build` errors.  Returns
the final states of the sites that were processed and the fatal error. -/
def mainRun (cfg : Config) (now : Nat) :
    List (Fs × Fs) → List (Fs × List Event) × Option Err
  | [] => ([], none)
  | (src, dst) :: rest =>
    let r := build cfg now [] [] src dst
    match r.2.2 with
    | some e => ([(r.1, r.2.1)], some e)
    | none =>
        let m := mainRun cfg now rest
        ((r.1, r.2.1) :: m.1, m.2)

/-! ## Template expansion (`buildPage`)

`buildPage` reads the template file and replaces every match of the Go
regexp `(?ms)^\s*%\x7b(.*?)(?ms)^\x7d%` by the output of one external
command: the captured group (everything after the opening marker up to the
start of the closing marker's line) is appended to `RunCmd` and executed;
on success the captured standard output is substituted, on failure the
error's description.  With `m` and `s` flags, `^` matches at the start of
the text and after every newline, `\s` also consumes newlines (so a match
may start at an earlier line start and swallow preceding whitespace-only
lines), and the closing marker `\x7d%` must sit immediately after a line
start — no leading whitespace is allowed before it.  The scanner below
implements exactly this search: at each line start, try `\s*` up to the
opening marker, then find the earliest following line start carrying the
closing marker. -/

/-- Result of running one command block's child process. -/
inductive CmdRes where
  | ok (stdout : String)
  | fail (errText : String)

/-- The text substituted for a block: captured stdout, or the error's
description when the command fails. -/
def blockOut (oracle : String → CmdRes) (body : List Char) : List Char :=
  match oracle (String.mk body) with
  | .ok out => out.data
  | .fail e => e.data

/-- Try `\s*%\x7b` at a line start; returns the rest after the opening
marker. -/
def matchOpen : List Char → Option (List Char)
  | [] => none
  | c :: cs =>
    if c = '%' then
      if cs.take 1 = ['\x7b'] then some (cs.drop 1) else none
    else if isWs c then matchOpen cs else none

/-- Find the earliest line start carrying `\x7d%`: returns the captured
body (up to and including the newline preceding the closing line) and the
rest after the closing marker. -/
def findClose : List Char → Option (List Char × List Char)
  | [] => none
  | c :: cs =>
    if c = '\n' ∧ cs.take 2 = ['\x7d', '%'] then some (['\n'], cs.drop 2)
    else
      match findClose cs with
      | some (b, r) => some (c :: b, r)
      | none => none

/-- A whole-pattern match attempt at a line start: captured body and rest
of the document after the match. -/
def matchBlockAt (s : List Char) : Option (List Char × List Char) :=
  match matchOpen s with
  | none => none
  | some t => findClose t

/-- The single left-to-right replacement pass of
`regexp.ReplaceAllStringFunc`, with explicit fuel (any fuel larger than the
document length gives the same result, see `expandGoF_fuel`): at every line
start attempt a match; on a match, emit the substitution and continue after
the match (the position right after `\x7d%` is mid-line). -/
def expandGoF (oracle : String → CmdRes) : Nat → Bool → List Char →
    List Char
  | 0, _, _ => []
  | fuel + 1, atStart, s =>
    match (if atStart then matchBlockAt s else none) with
    | some br => blockOut oracle br.1 ++ expandGoF oracle fuel false br.2
    | none =>
      match s with
      | [] => []
      | c :: cs => c :: expandGoF oracle fuel (c = '\n') cs

/-- The replacement pass over a document. -/
def expandGo (oracle : String → CmdRes) (atStart : Bool) (s : List Char) :
    List Char :=
  expandGoF oracle (s.length + 1) atStart s

/-- `buildPage`'s template expansion over the whole document. -/
def expand (oracle : String → CmdRes) (s : String) : String :=
  String.mk (expandGo oracle true s.data)

/-- `buildPage`: template read error is returned; otherwise the document is
fully expanded and written (the `os.WriteFile` error is discarded), and nil
is returned — so after a successful read the result is always `ok`, whether
or not any block's command failed. -/
def buildPage (tpl : Except Err String) (oracle : String → CmdRes) :
    Except Err String :=
  match tpl with
  | .error e => .error e
  | .ok t => .ok (expand oracle t)

/-! Spec-side reading of the template format (from the specification's
words, for comparison with the code's scanner): a block is opened by a line
whose first non-whitespace content is the opening marker and closed by a
later line whose first non-whitespace content is the closing marker. -/

/-- Spec wording: the line's first non-whitespace content is `%\x7b`. -/
def lineOpens (l : List Char) : Bool :=
  (l.dropWhile isWs).take 2 = ['%', '\x7b']

/-- Spec wording: the line's first non-whitespace content is `\x7d%` (with
optional leading whitespace). -/
def lineCloses (l : List Char) : Bool :=
  (l.dropWhile isWs).take 2 = ['\x7d', '%']

/-- Split a document into its lines. -/
def splitLines : List Char → List (List Char)
  | [] => [[]]
  | c :: cs =>
    let r := splitLines cs
    if c = '\n' then [] :: r
    else (c :: r.headI) :: r.tail

/-- `Modelled from the spec:` a document contains a command block when some
line opens one and a later line closes it. -/
def specHasBlock : List (List Char) → Bool
  | [] => false
  | l :: rest => (lineOpens l && rest.any lineCloses) || specHasBlock rest

/-! ## Predicates for the idempotence analysis -/

/-- The destination path written for one source entry: directories and
resources keep their path, content files get the extension exchange. -/
def dstPathOf (cfg : Config) (e : Path × Meta) : Path :=
  match e.2 with
  | .dir _ _ => e.1
  | .file _ _ => buildEq cfg e.1

/-- Does the source tree hold a directory at `q`? -/
def isSrcDirB (src : Fs) (q : Path) : Bool :=
  match fsGet src q with
  | some (.dir _ _) => true
  | _ => false

/-- The proper ancestors of a path, shortest first. -/
def strictPrefixes (p : Path) : List Path :=
  (List.range (p.length - 1)).map (fun i => p.take (i + 1))

/-- A source entry is in sync with the destination tree: its mapped
destination entry exists, and for files the destination is not older than
the source. -/
def SyncedEntry (cfg : Config) (fs : Fs) : Path × Meta → Prop
  | (p, .dir _ _) => ∃ i t, fsGet fs p = some (.dir i t)
  | (p, .file _ sM) =>
    if extOf (lastName p) = cfg.ext then
      ∃ i dM, fsGet fs (buildEq cfg p) = some (.file i dM) ∧ sM ≤ dM
    else ∃ dm, fsGet fs p = some dm ∧ sM ≤ dm.mtime

/-- Invariant of the build walk state: the destination tree is keyed
without duplicates, every entry would be kept by a further `clean`, files
never sit at source-directory paths, directories only do, inode identity
is coherent with the source tree, all inodes are below the fresh counter,
and no built document shares an inode with a source entry. -/
def BuildInv (cfg : Config) (src : Fs) (st : BState) : Prop :=
  (st.fs.map Prod.fst).Nodup ∧
  (∀ e ∈ st.fs, cleanDecide cfg src e.1 e.2 = .keep) ∧
  (∀ e ∈ st.fs, e.2.isFile = true → isSrcDirB src e.1 = false) ∧
  (∀ e ∈ st.fs, e.2.isDir = true → isSrcDirB src e.1 = true) ∧
  (∀ e ∈ st.fs, ∀ s ∈ src, e.2.ino = s.2.ino →
     e.2.isFile = true ∧ s.2.isFile = true ∧ e.2.mtime = s.2.mtime) ∧
  (∀ e ∈ st.fs, e.2.ino < st.nextIno) ∧
  (∀ s ∈ src, s.2.ino < st.nextIno) ∧
  (∀ e ∈ st.fs, e.2.isFile = true → extOf (lastName e.1) = ".html" →
     ∀ s ∈ src, s.2.ino ≠ e.2.ino)

/-- Well-formedness of a source/destination pair for the idempotence
statement: readable template; duplicate-free, rooted trees whose parents
are directories; hard-link inode coherence within the source tree and
across the trees; no source modification time in the future; an injective
source-to-destination path mapping; no source file with the built-document
extension; no orphan destination directory (deleting one aborts `clean`'s
walk); and no destination built document that aliases a source inode or
sits at a source directory path. -/
def WellFormed (cfg : Config) (now : Nat) (src dst : Fs) : Prop :=
  cfg.tplOk = true ∧
  (src.map Prod.fst).Nodup ∧
  (dst.map Prod.fst).Nodup ∧
  (∀ e ∈ src, e.1 ≠ []) ∧
  (∀ e ∈ src, ∀ q ∈ strictPrefixes e.1, isSrcDirB src q = true) ∧
  src.Pairwise (fun a b => a.2.ino = b.2.ino →
    a.2.isFile = true ∧ b.2.isFile = true ∧ a.2.mtime = b.2.mtime) ∧
  (∀ e ∈ src, ∀ f ∈ dst, e.2.ino = f.2.ino →
    e.2.isFile = true ∧ f.2.isFile = true ∧ e.2.mtime = f.2.mtime) ∧
  (∀ e ∈ src, e.2.isFile = true → e.2.mtime ≤ now) ∧
  src.Pairwise (fun a b => dstPathOf cfg a ≠ dstPathOf cfg b) ∧
  (∀ e ∈ src, e.2.isFile = true → extOf (lastName e.1) ≠ ".html") ∧
  (∀ f ∈ dst, f.2.isDir = true → isSrcDirB src f.1 = true) ∧
  (∀ f ∈ dst, f.2.isFile = true → extOf (lastName f.1) = ".html" →
    (∀ e ∈ src, e.2.ino ≠ f.2.ino) ∧ isSrcDirB src f.1 = false)

instance wellFormedDec (cfg : Config) (now : Nat) (src dst : Fs) :
    Decidable (WellFormed cfg now src dst) := by
  unfold WellFormed
  infer_instance

/-! ## Concrete instances used by counterexamples and witnesses -/

/-- A configuration with content extension `.md` and readable template. -/
def cfgMd : Config := ⟨".md", true⟩

/-- An oracle whose commands all succeed with output `XX`. -/
def oracleXX : String → CmdRes := fun _ => .ok "XX"

/-- A document whose closing marker line has leading whitespace. -/
def docWsClose : List Char := "%\x7b\necho\n \x7d%".data

/-- A two-block document: the first block's command fails, the second
succeeds. -/
def docTwoBlocks : List Char :=
  "A\n%\x7b\ncmd1\n\x7d%\nmid\n%\x7b\ncmd2\n\x7d%\nend".data

/-- The oracle for `docTwoBlocks`: first body fails with `ERR`, second
body succeeds with `OUT`. -/
def oracleTwo : String → CmdRes := fun s =>
  if s = "\ncmd1\n" then .fail "ERR" else
  if s = "\ncmd2\n" then .ok "OUT" else .ok ""

/-- Source tree for the idempotence witness: a directory, a content file
inside it, and a resource. -/
def srcW : Fs :=
  [(["d"], .dir 1 5), (["d", "x.md"], .file 2 5), (["b.png"], .file 3 5)]

/-- Source tree with one resource, for the orchestration counterexample. -/
def srcPng : Fs := [(["x.png"], .file 5 3)]

/-- Destination tree holding one orphan directory. -/
def dstOrphanDir : Fs := [(["a"], .dir 9 0)]

/-- Destination tree holding an orphan directory followed by an orphan
file in walk order. -/
def dstOrphanBoth : Fs := [(["a"], .dir 1 0), (["b.png"], .file 2 0)]

/-- Source tree with one content file, for the fault-injection
counterexample. -/
def srcOneMd : Fs := [(["a.md"], .file 1 5)]

/-- Source tree with a single resource carrying the built-document
extension `.html` — the input on which the build/clean pair churns. -/
def srcHtmlRes : Fs := [(["logo.html"], .file 1 5)]

/-- A configuration whose template file is unreadable. -/
def cfgNoTpl : Config := ⟨".md", false⟩

/-! # Lemmas -/

/-! ## Binding lists -/

theorem fsGet_cons (q : Path) (n : Meta) (fs : Fs) (p : Path) :
    fsGet ((q, n) :: fs) p = if q = p then some n else fsGet fs p := by
  by_cases h : q = p
  · simp [fsGet, List.find?, h]
  · simp [fsGet, List.find?, h]

theorem mem_of_fsGet_eq_some {fs : Fs} {p : Path} {m : Meta}
    (h : fsGet fs p = some m) : (p, m) ∈ fs := by
  induction fs with
  | nil => simp [fsGet, List.find?] at h
  | cons e rest ih =>
    obtain ⟨q, n⟩ := e
    rw [fsGet_cons] at h
    by_cases hq : q = p
    · rw [if_pos hq] at h
      cases h
      cases hq
      exact List.mem_cons.mpr (Or.inl rfl)
    · rw [if_neg hq] at h
      exact List.mem_cons_of_mem _ (ih h)

theorem fsGet_eq_some_of_mem {fs : Fs} {p : Path} {m : Meta}
    (hmem : (p, m) ∈ fs) (hnd : (fs.map Prod.fst).Nodup) :
    fsGet fs p = some m := by
  induction fs with
  | nil => simp at hmem
  | cons e rest ih =>
    obtain ⟨q, n⟩ := e
    rw [fsGet_cons]
    rw [List.map_cons, List.nodup_cons] at hnd
    rcases List.mem_cons.mp hmem with he | htail
    · cases he
      simp
    · have hq : q ≠ p := by
        intro hqp
        refine hnd.1 ?_
        rw [hqp]
        exact List.mem_map.mpr ⟨(p, m), htail, rfl⟩
      rw [if_neg hq]
      exact ih htail hnd.2

theorem fsGet_eq_none_iff {fs : Fs} {p : Path} :
    fsGet fs p = none ↔ p ∉ fs.map Prod.fst := by
  induction fs with
  | nil => simp [fsGet, List.find?]
  | cons e rest ih =>
    obtain ⟨q, n⟩ := e
    rw [fsGet_cons, List.map_cons]
    by_cases hq : q = p
    · constructor
      · intro h
        rw [if_pos hq] at h
        exact Option.noConfusion h
      · intro h
        exact absurd (List.mem_cons.mpr (Or.inl hq.symm)) h
    · rw [if_neg hq, ih]
      constructor
      · intro h hin
        rcases List.mem_cons.mp hin with h1 | h2
        · exact hq h1.symm
        · exact h h2
      · intro h hin
        exact h (List.mem_cons.mpr (Or.inr hin))

theorem fsGet_perm {fs fs2 : Fs} (hp : fs.Perm fs2)
    (hnd : (fs.map Prod.fst).Nodup) (p : Path) :
    fsGet fs p = fsGet fs2 p := by
  have hnd2 : (fs2.map Prod.fst).Nodup := ((hp.map Prod.fst).nodup_iff).mp hnd
  match hg : fsGet fs p with
  | some m =>
    exact (fsGet_eq_some_of_mem (hp.mem_iff.mp (mem_of_fsGet_eq_some hg))
      hnd2).symm
  | none =>
    have := fsGet_eq_none_iff.mp hg
    exact (fsGet_eq_none_iff.mpr (fun hin =>
      this ((hp.map Prod.fst).mem_iff.mpr hin))).symm

theorem fsGet_fsSet_self (fs : Fs) (p : Path) (m : Meta) :
    fsGet (fsSet fs p m) p = some m := by
  induction fs with
  | nil => simp [fsSet, fsGet_cons]
  | cons e rest ih =>
    obtain ⟨q, n⟩ := e
    rw [fsSet]
    by_cases hq : q = p
    · rw [if_pos hq, fsGet_cons, if_pos rfl]
    · rw [if_neg hq, fsGet_cons, if_neg hq]
      exact ih

theorem fsGet_fsSet_ne (fs : Fs) (p : Path) (m : Meta) {q : Path}
    (h : q ≠ p) : fsGet (fsSet fs p m) q = fsGet fs q := by
  have hpq : ¬ p = q := fun hpq => h hpq.symm
  induction fs with
  | nil =>
    rw [show fsSet [] p m = [(p, m)] from rfl, fsGet_cons, if_neg hpq]
  | cons e rest ih =>
    obtain ⟨a, n⟩ := e
    rw [fsSet]
    by_cases ha : a = p
    · rw [if_pos ha, fsGet_cons, fsGet_cons, if_neg hpq,
        if_neg (fun haq => hpq (ha.symm.trans haq))]
    · rw [if_neg ha, fsGet_cons, fsGet_cons]
      by_cases haq : a = q
      · rw [if_pos haq, if_pos haq]
      · rw [if_neg haq, if_neg haq]
        exact ih

theorem mem_fsSet {fs : Fs} {p : Path} {m : Meta} {e : Path × Meta}
    (h : e ∈ fsSet fs p m) : e = (p, m) ∨ e ∈ fs := by
  induction fs with
  | nil => simpa [fsSet] using h
  | cons f rest ih =>
    rw [fsSet] at h
    by_cases hf : f.1 = p
    · rw [if_pos hf] at h
      rcases List.mem_cons.mp h with he | ht
      · exact Or.inl he
      · exact Or.inr (List.mem_cons_of_mem _ ht)
    · rw [if_neg hf] at h
      rcases List.mem_cons.mp h with he | ht
      · exact Or.inr (by cases he; exact List.mem_cons_self _ _)
      · rcases ih ht with h1 | h2
        · exact Or.inl h1
        · exact Or.inr (List.mem_cons_of_mem _ h2)

theorem keys_fsSet (fs : Fs) (p : Path) (m : Meta) :
    (fsSet fs p m).map Prod.fst =
      if p ∈ fs.map Prod.fst then fs.map Prod.fst
      else fs.map Prod.fst ++ [p] := by
  induction fs with
  | nil => simp [fsSet]
  | cons e rest ih =>
    obtain ⟨q, n⟩ := e
    rw [fsSet]
    by_cases hq : q = p
    · rw [if_pos hq, List.map_cons, List.map_cons,
        if_pos (List.mem_cons.mpr (Or.inl hq.symm)), hq]
    · rw [if_neg hq]
      simp only [List.map_cons, ih]
      by_cases hmem : p ∈ rest.map Prod.fst
      · rw [if_pos hmem, if_pos (List.mem_cons.mpr (Or.inr hmem))]
      · rw [if_neg hmem, if_neg (fun hin => by
          rcases List.mem_cons.mp hin with h1 | h2
          · exact hq h1.symm
          · exact hmem h2), List.cons_append]

theorem nodup_keys_fsSet {fs : Fs} (p : Path) (m : Meta)
    (hnd : (fs.map Prod.fst).Nodup) :
    ((fsSet fs p m).map Prod.fst).Nodup := by
  rw [keys_fsSet]
  by_cases hmem : p ∈ fs.map Prod.fst
  · rwa [if_pos hmem]
  · rw [if_neg hmem]
    refine List.Nodup.append hnd (List.nodup_singleton p) ?_
    intro a ha hb
    simp only [List.mem_singleton] at hb
    cases hb
    exact hmem ha

theorem ino_le_maxIno {fs : Fs} {e : Path × Meta} (h : e ∈ fs) :
    e.2.ino ≤ maxIno fs := by
  induction fs with
  | nil => simp at h
  | cons f rest ih =>
    rcases List.mem_cons.mp h with he | ht
    · cases he
      exact le_max_left _ _
    · exact (ih ht).trans (le_max_right _ _)

/-! ## `clean` walk lemmas -/

theorem cleanDecide_delTree_isDir {cfg : Config} {src : Fs} {p : Path}
    {m : Meta} (h : cleanDecide cfg src p m = .delTree) :
    m.isDir = true := by
  cases m with
  | dir i t => rfl
  | file i t =>
    rw [cleanDecide] at h
    split at h
    · split at h
      · exact CleanAct.noConfusion h
      · exact CleanAct.noConfusion h
    · exact CleanAct.noConfusion h

theorem cleanFold_keepAll {cfg : Config} {src : Fs} {l : List (Path × Meta)}
    (h : ∀ e ∈ l, cleanDecide cfg src e.1 e.2 = .keep) :
    cleanFold cfg src l = (l, [], none) := by
  induction l with
  | nil => rfl
  | cons e rest ih =>
    obtain ⟨p, m⟩ := e
    have hd := h (p, m) (List.mem_cons.mpr (Or.inl rfl))
    simp only [cleanFold, hd]
    rw [ih (fun f hf => h f (List.mem_cons_of_mem _ hf))]

theorem cleanFold_filter {cfg : Config} {src : Fs} {l : List (Path × Meta)}
    (h : ∀ e ∈ l, e.2.isDir = true → cleanDecide cfg src e.1 e.2 = .keep) :
    cleanFold cfg src l =
      (l.filter (fun e => cleanDecide cfg src e.1 e.2 = CleanAct.keep),
       (l.filter (fun e => ¬ cleanDecide cfg src e.1 e.2 = CleanAct.keep)).map
         (fun e => Event.delFile e.1),
       none) := by
  induction l with
  | nil => rfl
  | cons e rest ih =>
    obtain ⟨p, m⟩ := e
    have ihr := ih (fun f hf => h f (List.mem_cons_of_mem _ hf))
    match hd : cleanDecide cfg src p m with
    | .keep =>
      simp only [cleanFold, hd, ihr, List.filter_cons]
      simp [hd]
    | .delFile =>
      simp only [cleanFold, hd, ihr, List.filter_cons]
      simp [hd]
    | .delTree =>
      have := h (p, m) (List.mem_cons.mpr (Or.inl rfl))
        (cleanDecide_delTree_isDir hd)
      rw [hd] at this
      exact CleanAct.noConfusion this

/-! ## Extension arithmetic -/

theorem extRev_ne_dot {r e : List Char} (h : extRev r = e) (he : e ≠ []) :
    e.reverse <+: r := by
  induction r generalizing e with
  | nil =>
    rw [extRev] at h
    exact absurd h.symm he
  | cons c cs ih =>
    rw [extRev] at h
    by_cases hc : c = '.'
    · rw [if_pos hc] at h
      cases h
      cases hc
      exact ⟨cs, rfl⟩
    · rw [if_neg hc] at h
      match hr : extRev cs with
      | [] =>
        rw [hr] at h
        exact absurd h.symm he
      | d :: ds =>
        rw [hr] at h
        cases h
        obtain ⟨t, ht⟩ := ih hr (by simp)
        refine ⟨t, ?_⟩
        rw [List.reverse_append]
        show ([c] ++ (d :: ds).reverse) ++ t = c :: cs
        rw [List.singleton_append, List.cons_append, ht]

theorem trimSuffix_data_of_suffix {n suf : String}
    (h : suf.data <:+ n.data) :
    (trimSuffix n suf).data =
      n.data.take (n.data.length - suf.data.length) := by
  unfold trimSuffix
  rw [if_pos (List.isSuffixOf_iff_suffix.mpr h)]

theorem trimSuffix_extOf_append (n : String) :
    trimSuffix n (extOf n) ++ extOf n = n := by
  by_cases he : (extOf n).data = []
  · have hsuf : (extOf n).data <:+ n.data :=
      ⟨n.data, by rw [he, List.append_nil]⟩
    apply String.ext
    show (trimSuffix n (extOf n)).data ++ (extOf n).data = n.data
    rw [trimSuffix_data_of_suffix hsuf, he, List.append_nil]
    simp
  · have hpre : (extOf n).data.reverse <+: n.data.reverse :=
      extRev_ne_dot rfl he
    have hsuf : (extOf n).data <:+ n.data := List.reverse_prefix.mp hpre
    obtain ⟨stem, hstem⟩ := hsuf
    apply String.ext
    show (trimSuffix n (extOf n)).data ++ (extOf n).data = n.data
    rw [trimSuffix_data_of_suffix ⟨stem, hstem⟩]
    have hlen : n.data.length - (extOf n).data.length = stem.length := by
      rw [← hstem, List.length_append]
      omega
    rw [hlen, ← hstem, List.take_left]

theorem trimSuffix_append (x suf : String) :
    trimSuffix (x ++ suf) suf = x := by
  have hd : (x ++ suf).data = x.data ++ suf.data := rfl
  have hsuf : suf.data <:+ (x ++ suf).data := by
    rw [hd]
    exact List.suffix_append x.data suf.data
  apply String.ext
  rw [trimSuffix_data_of_suffix hsuf, hd]
  have hlen : (x.data ++ suf.data).length - suf.data.length = x.data.length := by
    rw [List.length_append]
    omega
  rw [hlen, List.take_left]

theorem extRev_html (w : List Char) :
    extRev (['l', 'm', 't', 'h', '.'] ++ w) = ['.', 'h', 't', 'm', 'l'] := by
  simp [extRev]

theorem extOf_append_html (x : String) : extOf (x ++ ".html") = ".html" := by
  apply String.ext
  show extRev (x ++ ".html").data.reverse = ".html".data
  have hd : (x ++ ".html").data = x.data ++ ".html".data := rfl
  rw [hd, List.reverse_append]
  have hrev : (".html".data).reverse = ['l', 'm', 't', 'h', '.'] := rfl
  rw [hrev, extRev_html]

theorem lastName_mapLast (f : String → String) :
    ∀ {p : Path}, p ≠ [] → lastName (mapLast f p) = f (lastName p)
  | [], h => absurd rfl h
  | [_], _ => rfl
  | a :: b :: r, _ => by
    show lastName (a :: mapLast f (b :: r)) = f (lastName (b :: r))
    have hx := lastName_mapLast f (p := b :: r) (by simp)
    cases r with
    | nil => exact hx
    | cons c r3 =>
      show lastName (a :: b :: mapLast f (c :: r3)) = f (lastName (b :: c :: r3))
      exact hx

theorem mapLast_mapLast (f g : String → String) :
    ∀ (p : Path), mapLast f (mapLast g p) = mapLast (fun n => f (g n)) p
  | [] => rfl
  | [_] => rfl
  | a :: b :: r => by
    show mapLast f (a :: mapLast g (b :: r)) =
      a :: mapLast (fun n => f (g n)) (b :: r)
    cases r with
    | nil => rfl
    | cons c r3 =>
      show a :: mapLast f (mapLast g (b :: c :: r3)) =
        a :: mapLast (fun n => f (g n)) (b :: c :: r3)
      rw [mapLast_mapLast f g (b :: c :: r3)]

theorem mapLast_eq_self {h : String → String} :
    ∀ {p : Path}, h (lastName p) = lastName p → mapLast h p = p
  | [], _ => rfl
  | [a], hh => by
    show [h a] = [a]
    rw [show h a = a from hh]
  | a :: b :: r, hh => by
    show a :: mapLast h (b :: r) = a :: b :: r
    rw [mapLast_eq_self (p := b :: r) hh]

theorem buildEq_content {cfg : Config} {p : Path}
    (hext : extOf (lastName p) = cfg.ext) :
    buildEq cfg p =
      mapLast (fun n => trimSuffix n (extOf (lastName p)) ++ ".html") p := by
  simp only [buildEq]
  rw [if_pos hext]

theorem buildEq_ne {cfg : Config} {p : Path}
    (hext : extOf (lastName p) ≠ cfg.ext) : buildEq cfg p = p := by
  simp only [buildEq]
  rw [if_neg hext]

theorem cleanEq_html {cfg : Config} {p : Path}
    (h : extOf (lastName p) = ".html") :
    cleanEq cfg p = mapLast (fun n => trimSuffix n ".html" ++ cfg.ext) p := by
  simp only [cleanEq]
  rw [if_pos h]

theorem cleanEq_ne {cfg : Config} {p : Path}
    (h : extOf (lastName p) ≠ ".html") : cleanEq cfg p = p := by
  simp only [cleanEq]
  rw [if_neg h]

theorem extOf_lastName_buildEq {cfg : Config} {p : Path}
    (hext : extOf (lastName p) = cfg.ext) (hp : p ≠ []) :
    extOf (lastName (buildEq cfg p)) = ".html" := by
  rw [buildEq_content hext, lastName_mapLast _ hp, extOf_append_html]

theorem cleanEq_buildEq {cfg : Config} {p : Path}
    (hext : extOf (lastName p) = cfg.ext) (hp : p ≠ []) :
    cleanEq cfg (buildEq cfg p) = p := by
  have h2 := extOf_lastName_buildEq hext hp
  rw [cleanEq_html h2, buildEq_content hext, mapLast_mapLast]
  apply mapLast_eq_self
  show trimSuffix (trimSuffix (lastName p) (extOf (lastName p)) ++ ".html")
      ".html" ++ cfg.ext = lastName p
  rw [trimSuffix_append, ← hext, trimSuffix_extOf_append]

/-! ## Template scanner lemmas -/

theorem matchOpen_length {s t : List Char} (h : matchOpen s = some t) :
    t.length + 2 ≤ s.length := by
  induction s with
  | nil => simp [matchOpen] at h
  | cons c cs ih =>
    rw [matchOpen] at h
    by_cases hc : c = '%'
    · rw [if_pos hc] at h
      by_cases hd : cs.take 1 = ['\x7b']
      · rw [if_pos hd] at h
        cases h
        have h1 : (List.take 1 cs).length = 1 := by rw [hd]; rfl
        rw [List.length_take] at h1
        simp [List.length_drop]
        omega
      · rw [if_neg hd] at h
        exact absurd h (by simp)
    · rw [if_neg hc] at h
      by_cases hw : isWs c
      · rw [if_pos hw] at h
        have := ih h
        simp
        omega
      · rw [if_neg hw] at h
        exact absurd h (by simp)

theorem findClose_length {s b r : List Char}
    (h : findClose s = some (b, r)) : r.length + 3 ≤ s.length := by
  induction s generalizing b r with
  | nil => simp [findClose] at h
  | cons c cs ih =>
    rw [findClose] at h
    by_cases hc : c = '\n' ∧ cs.take 2 = ['\x7d', '%']
    · rw [if_pos hc] at h
      cases h
      have h2 : (List.take 2 cs).length = 2 := by rw [hc.2]; rfl
      rw [List.length_take] at h2
      simp [List.length_drop]
      omega
    · rw [if_neg hc] at h
      match hfc : findClose cs with
      | some (b2, r2) =>
        rw [hfc] at h
        cases h
        have := ih hfc
        simp
        omega
      | none => rw [hfc] at h; exact absurd h (by simp)

theorem matchBlockAt_length {s b r : List Char}
    (h : matchBlockAt s = some (b, r)) : r.length < s.length := by
  unfold matchBlockAt at h
  match ho : matchOpen s with
  | none => rw [ho] at h; exact absurd h (by simp)
  | some t =>
    rw [ho] at h
    have h1 := matchOpen_length ho
    have h2 := findClose_length h
    omega

theorem expandGoF_succ (oracle : String → CmdRes) (fuel : Nat)
    (atStart : Bool) (s : List Char) :
    expandGoF oracle (fuel + 1) atStart s =
      match (if atStart then matchBlockAt s else none) with
      | some br => blockOut oracle br.1 ++ expandGoF oracle fuel false br.2
      | none =>
        match s with
        | [] => []
        | c :: cs => c :: expandGoF oracle fuel (c = '\n') cs := rfl

theorem expandGoF_fuel (oracle : String → CmdRes) (f1 : Nat) :
    ∀ (f2 : Nat) (atStart : Bool) (s : List Char), s.length < f1 →
    s.length < f2 → expandGoF oracle f1 atStart s = expandGoF oracle f2 atStart s := by
  induction f1 with
  | zero =>
    intro f2 a s h1 h2
    omega
  | succ f1 ih =>
    intro f2 atStart s h1 h2
    cases f2 with
    | zero => omega
    | succ f2 =>
      rw [expandGoF_succ, expandGoF_succ]
      match hm : (if atStart then matchBlockAt s else none) with
      | some br =>
        have hb : matchBlockAt s = some br := by
          by_cases ha : atStart
          · rwa [if_pos ha] at hm
          · rw [if_neg ha] at hm
            exact Option.noConfusion hm
        obtain ⟨b1, b2⟩ := br
        have hlt := matchBlockAt_length hb
        show blockOut oracle b1 ++ expandGoF oracle f1 false b2 =
          blockOut oracle b1 ++ expandGoF oracle f2 false b2
        rw [ih f2 false b2 (by omega) (by omega)]
      | none =>
        match s, h1, h2 with
        | [], _, _ => rfl
        | c :: cs, h1, h2 =>
          show c :: expandGoF oracle f1 (c = '\n') cs =
            c :: expandGoF oracle f2 (c = '\n') cs
          simp only [List.length_cons] at h1 h2
          rw [ih f2 (c = '\n') cs (by omega) (by omega)]

theorem matchOpen_ws {w : List Char} (hw : ∀ c ∈ w, isWs c = true)
    (rest : List Char) :
    matchOpen (w ++ '%' :: '\x7b' :: rest) = some rest := by
  induction w with
  | nil =>
    rw [List.nil_append, matchOpen, if_pos rfl]
    simp
  | cons c cs ih =>
    rw [List.cons_append, matchOpen]
    have hc : isWs c = true := hw c (List.mem_cons.mpr (Or.inl rfl))
    have hcp : c ≠ '%' := by
      intro hcp
      rw [hcp] at hc
      exact Bool.noConfusion hc
    rw [if_neg hcp, if_pos hc]
    exact ih (fun d hd => hw d (List.mem_cons_of_mem _ hd))

theorem findClose_append :
    ∀ {b : List Char}, findClose b = none → ∀ (r : List Char),
      findClose (b ++ '\n' :: '\x7d' :: '%' :: r) = some (b ++ ['\n'], r)
  | [], _, r => by
    rw [List.nil_append, findClose, if_pos ⟨rfl, rfl⟩]
    rfl
  | c :: bs, h, r => by
    rw [findClose] at h
    by_cases hc : c = '\n' ∧ bs.take 2 = ['\x7d', '%']
    · rw [if_pos hc] at h
      exact Option.noConfusion h
    · rw [if_neg hc] at h
      have hbs : findClose bs = none := by
        match hfb : findClose bs with
        | none => rfl
        | some (b2, r2) => rw [hfb] at h; exact Option.noConfusion h
      rw [List.cons_append, findClose]
      have hcond : ¬ (c = '\n' ∧
          (bs ++ '\n' :: '\x7d' :: '%' :: r).take 2 = ['\x7d', '%']) := by
        rintro ⟨hcn, htake⟩
        cases bs with
        | nil => simp at htake
        | cons d ds =>
          cases ds with
          | nil => simp at htake
          | cons e es =>
            have h3 : List.take 2 ((d :: e :: es) ++ '\n' :: '\x7d' :: '%' :: r)
                = [d, e] := rfl
            rw [h3] at htake
            have h4 : List.take 2 (d :: e :: es) = [d, e] := rfl
            exact hc ⟨hcn, by rw [h4, htake]⟩
      rw [if_neg hcond, findClose_append hbs r]
      rfl

theorem findClose_suffix_none :
    ∀ {u t : List Char}, findClose (u ++ t) = none → findClose t = none
  | [], _, h => h
  | c :: us, t, h => by
    rw [List.cons_append, findClose] at h
    by_cases hc : c = '\n' ∧ (us ++ t).take 2 = ['\x7d', '%']
    · rw [if_pos hc] at h
      exact Option.noConfusion h
    · rw [if_neg hc] at h
      match hfb : findClose (us ++ t) with
      | none => exact findClose_suffix_none hfb
      | some br =>
        rw [hfb] at h
        exact Option.noConfusion h

theorem matchOpen_suffix :
    ∀ {s t : List Char}, matchOpen s = some t → ∃ u, s = u ++ t
  | [], _, h => by simp [matchOpen] at h
  | c :: cs, t, h => by
    rw [matchOpen] at h
    by_cases hc : c = '%'
    · rw [if_pos hc] at h
      by_cases hd : cs.take 1 = ['\x7b']
      · rw [if_pos hd] at h
        cases h
        refine ⟨[c, '\x7b'], ?_⟩
        have := (List.take_append_drop 1 cs).symm
        rw [hd] at this
        show c :: cs = c :: '\x7b' :: cs.drop 1
        rw [this]
        rfl
      · rw [if_neg hd] at h
        exact absurd h (by simp)
    · rw [if_neg hc] at h
      by_cases hw : isWs c
      · rw [if_pos hw] at h
        obtain ⟨u, hu⟩ := matchOpen_suffix h
        exact ⟨c :: u, by rw [List.cons_append, ← hu]⟩
      · rw [if_neg hw] at h
        exact absurd h (by simp)

theorem matchBlockAt_none_of_findClose_none {s : List Char}
    (h : findClose s = none) : matchBlockAt s = none := by
  unfold matchBlockAt
  match ho : matchOpen s with
  | none => rfl
  | some t =>
    obtain ⟨u, hu⟩ := matchOpen_suffix ho
    rw [hu] at h
    exact findClose_suffix_none h

theorem expandGoF_noClose (oracle : String → CmdRes) (fuel : Nat) :
    ∀ (atStart : Bool) (s : List Char), s.length < fuel →
      findClose s = none → expandGoF oracle fuel atStart s = s := by
  induction fuel with
  | zero =>
    intro a s h1 h2
    omega
  | succ fuel ih =>
    intro atStart s h1 h2
    rw [expandGoF_succ]
    have hm : (if atStart then matchBlockAt s else none) = none := by
      by_cases ha : atStart
      · rw [if_pos ha]
        exact matchBlockAt_none_of_findClose_none h2
      · rw [if_neg ha]
    rw [hm]
    match s, h1, h2 with
    | [], _, _ => rfl
    | c :: cs, h1, h2 =>
      show c :: expandGoF oracle fuel (c = '\n') cs = c :: cs
      have hcs : findClose cs = none := findClose_suffix_none (u := [c]) h2
      simp only [List.length_cons] at h1
      rw [ih (c = '\n') cs (by omega) hcs]

theorem expandGo_noClose (oracle : String → CmdRes) (atStart : Bool)
    {s : List Char} (h : findClose s = none) :
    expandGo oracle atStart s = s :=
  expandGoF_noClose oracle (s.length + 1) atStart s (by omega) h

theorem expandGo_subst (oracle : String → CmdRes) {w b : List Char}
    (r : List Char) (hw : ∀ c ∈ w, isWs c = true) (hb : findClose b = none) :
    expandGo oracle true (w ++ '%' :: '\x7b' :: (b ++ '\n' :: '\x7d' :: '%' :: r)) =
      blockOut oracle (b ++ ['\n']) ++ expandGo oracle false r := by
  unfold expandGo
  rw [expandGoF_succ]
  have hm : matchBlockAt
      (w ++ '%' :: '\x7b' :: (b ++ '\n' :: '\x7d' :: '%' :: r)) =
      some (b ++ ['\n'], r) := by
    unfold matchBlockAt
    rw [matchOpen_ws hw]
    show findClose (b ++ '\n' :: '\x7d' :: '%' :: r) = some (b ++ ['\n'], r)
    exact findClose_append hb r
  rw [if_pos rfl, hm]
  show blockOut oracle (b ++ ['\n']) ++ expandGoF oracle
      (w ++ '%' :: '\x7b' :: (b ++ '\n' :: '\x7d' :: '%' :: r)).length false r =
    blockOut oracle (b ++ ['\n']) ++ expandGoF oracle (r.length + 1) false r
  congr 1
  apply expandGoF_fuel
  · simp [List.length_append]
    omega
  · omega

/-! ## Build walk lemmas -/

theorem statDst_nil (fs : Fs) (p : Path) : statDst fs [] p =
    (match fsGet fs p with
     | some m => StatRes.ok m
     | none => .enoent) := by
  unfold statDst
  rw [if_neg (by simp)]

theorem writeOver_nextIno (now : Nat) (st : BState) (p : Path)
    (old : Meta) : (writeOver now st p old).nextIno = st.nextIno := by
  cases old <;> rfl

theorem writeOver_evs (now : Nat) (st : BState) (p : Path) (old : Meta) :
    (writeOver now st p old).evs = st.evs := by
  cases old <;> rfl

theorem buildStep_dir (cfg : Config) (now : Nat) (f w : List Path)
    (st : BState) (p : Path) (i t : Nat) :
    buildStep cfg now f w st (p, .dir i t) =
      match mkdirAll now st p with
      | .ok st2 => .ok st2
      | .error e => .error (e, st) := rfl

theorem buildFold_cons (cfg : Config) (now : Nat) (f w : List Path)
    (e : Path × Meta) (rest : List (Path × Meta)) (st : BState) :
    buildFold cfg now f w (e :: rest) st =
      match buildStep cfg now f w st e with
      | .ok st2 => buildFold cfg now f w rest st2
      | .error (er, st2) => (st2, some er) := rfl

theorem isSrcDirB_iff {src : Fs} {q : Path} :
    isSrcDirB src q = true ↔ ∃ i t, fsGet src q = some (.dir i t) := by
  unfold isSrcDirB
  match hg : fsGet src q with
  | some (.dir i t) => simp
  | some (.file i t) => simp
  | none => simp

theorem isSrcDirB_false_of_file {src : Fs} {q : Path} {i t : Nat}
    (h : fsGet src q = some (.file i t)) : isSrcDirB src q = false := by
  unfold isSrcDirB
  rw [h]

theorem cleanDecide_keep_of_srcDir {cfg : Config} {src : Fs} {q : Path}
    (h : isSrcDirB src q = true) (i t : Nat) :
    cleanDecide cfg src q (.dir i t) = .keep := by
  obtain ⟨i2, t2, hg⟩ := isSrcDirB_iff.mp h
  unfold cleanDecide
  rw [hg]
  rfl

/-- The list of directories `os.MkdirAll` examines for `p`. -/
theorem mem_mkdirList {p q : Path}
    (h : q ∈ (List.range p.length).map (fun i => p.take (i + 1))) :
    q = p ∨ q ∈ strictPrefixes p := by
  obtain ⟨i, hi, hq⟩ := List.mem_map.mp h
  rw [List.mem_range] at hi
  by_cases hlast : i + 1 = p.length
  · left
    rw [← hq, hlast, List.take_length]
  · right
    unfold strictPrefixes
    exact List.mem_map.mpr ⟨i, List.mem_range.mpr (by omega), hq⟩

theorem self_mem_mkdirList {p : Path} (h : p ≠ []) :
    p ∈ (List.range p.length).map (fun i => p.take (i + 1)) := by
  have hlen : 0 < p.length := List.length_pos.mpr h
  refine List.mem_map.mpr ⟨p.length - 1, List.mem_range.mpr (by omega), ?_⟩
  rw [show p.length - 1 + 1 = p.length from by omega, List.take_length]

theorem mkdirGo_ok {src : Fs} (now : Nat) :
    ∀ (qs : List Path) (st : BState),
    (∀ q ∈ qs, isSrcDirB src q = true) →
    (∀ e ∈ st.fs, e.2.isFile = true → isSrcDirB src e.1 = false) →
    (st.fs.map Prod.fst).Nodup →
    ∃ st2, mkdirAll.go now st qs = .ok st2 ∧
      st2.evs = st.evs ∧
      st.nextIno ≤ st2.nextIno ∧
      (∀ q mq, fsGet st.fs q = some mq → fsGet st2.fs q = some mq) ∧
      (∀ f ∈ st2.fs, f ∈ st.fs ∨
        (∃ i, f.2 = Meta.dir i now ∧ st.nextIno ≤ i ∧ i < st2.nextIno ∧
          f.1 ∈ qs)) ∧
      (∀ q ∈ qs, ∃ i t, fsGet st2.fs q = some (.dir i t)) ∧
      (st2.fs.map Prod.fst).Nodup
  | [], st, _, _, hnd =>
    ⟨st, rfl, rfl, le_refl _, fun q mq h => h, fun f hf => Or.inl hf,
      fun q hq => absurd hq (List.not_mem_nil q), hnd⟩
  | q :: qs, st, hdirs, hfiles, hnd => by
    have hq := hdirs q (List.mem_cons.mpr (Or.inl rfl))
    rw [show mkdirAll.go now st (q :: qs) =
      (match fsGet st.fs q with
       | some (.dir _ _) => mkdirAll.go now st qs
       | some (.file _ _) => .error .notDir
       | none =>
          mkdirAll.go now
            { st with
                fs := fsSet st.fs q (.dir st.nextIno now),
                nextIno := st.nextIno + 1 } qs) from rfl]
    match hg : fsGet st.fs q with
    | some (.dir i t) =>
      obtain ⟨st2, hgo, hevs, hino, hframe, hmem, htgt, hnd2⟩ :=
        mkdirGo_ok now qs st
          (fun x hx => hdirs x (List.mem_cons_of_mem _ hx)) hfiles hnd
      refine ⟨st2, hgo, hevs, hino, hframe, ?_, ?_, hnd2⟩
      · intro f hf
        rcases hmem f hf with h1 | ⟨i2, h2⟩
        · exact Or.inl h1
        · exact Or.inr ⟨i2, h2.1, h2.2.1, h2.2.2.1,
            List.mem_cons_of_mem _ h2.2.2.2⟩
      · intro x hx
        rcases List.mem_cons.mp hx with h1 | h2
        · cases h1
          exact ⟨i, t, hframe _ _ hg⟩
        · exact htgt x h2
    | some (.file i t) =>
      have := hfiles (q, .file i t) (mem_of_fsGet_eq_some hg) rfl
      rw [this] at hq
      exact absurd hq (by simp)
    | none =>
      have hnd2 : ((fsSet st.fs q (.dir st.nextIno now)).map Prod.fst).Nodup :=
        nodup_keys_fsSet q _ hnd
      have hfiles2 : ∀ e ∈ fsSet st.fs q (.dir st.nextIno now),
          e.2.isFile = true → isSrcDirB src e.1 = false := by
        intro f hf hff
        rcases mem_fsSet hf with h1 | h2
        · rw [h1] at hff
          exact Bool.noConfusion hff
        · exact hfiles f h2 hff
      obtain ⟨st2, hgo, hevs, hino, hframe, hmem, htgt, hnd3⟩ :=
        mkdirGo_ok now qs
          { st with
              fs := fsSet st.fs q (.dir st.nextIno now),
              nextIno := st.nextIno + 1 }
          (fun x hx => hdirs x (List.mem_cons_of_mem _ hx)) hfiles2 hnd2
      have hino2 : st.nextIno + 1 ≤ st2.nextIno := hino
      refine ⟨st2, hgo, hevs, by omega, ?_, ?_, ?_, hnd3⟩
      · intro x mq hx
        have hxq : x ≠ q := by
          intro hxq
          rw [hxq, hg] at hx
          exact Option.noConfusion hx
        refine hframe x mq ?_
        show fsGet (fsSet st.fs q (.dir st.nextIno now)) x = some mq
        rw [fsGet_fsSet_ne _ _ _ hxq]
        exact hx
      · intro f hf
        rcases hmem f hf with h1 | ⟨i2, h2⟩
        · rcases mem_fsSet h1 with h3 | h4
          · refine Or.inr ⟨st.nextIno, by rw [h3], le_refl _, ?_,
              List.mem_cons.mpr (Or.inl (by rw [h3]))⟩
            have h5 : st.nextIno + 1 ≤ st2.nextIno := hino
            omega
          · exact Or.inl h4
        · exact Or.inr ⟨i2, h2.1, by
            have : st.nextIno + 1 ≤ i2 := h2.2.1
            omega, h2.2.2.1, List.mem_cons_of_mem _ h2.2.2.2⟩
      · intro x hx
        rcases List.mem_cons.mp hx with h1 | h2
        · cases h1
          refine ⟨st.nextIno, now, hframe _ _ ?_⟩
          show fsGet (fsSet st.fs q (.dir st.nextIno now)) q =
            some (.dir st.nextIno now)
          exact fsGet_fsSet_self _ _ _
        · exact htgt x h2

theorem buildStep_file (cfg : Config) (now : Nat) (f w : List Path)
    (st : BState) (p : Path) (sIno sM : Nat) :
    buildStep cfg now f w st (p, .file sIno sM) =
      (if extOf (lastName p) = cfg.ext then
        match statDst st.fs f (buildEq cfg p) with
        | .enoent =>
            if cfg.tplOk then
              let st2 := if buildEq cfg p ∈ w then st
                else writeNew now st (buildEq cfg p)
              .ok { st2 with evs := st2.evs ++ [.create (buildEq cfg p)] }
            else .error (.tplRead, st)
        | .ok dm =>
            if sM > dm.mtime then
              if cfg.tplOk then
                let st2 := if buildEq cfg p ∈ w then st
                  else writeOver now st (buildEq cfg p) dm
                .ok { st2 with evs := st2.evs ++ [.update (buildEq cfg p)] }
              else .error (.tplRead, st)
            else .ok st
        | .eother => .ok st
      else
        match statDst st.fs f p with
        | .enoent =>
            .ok { st with
                    fs := fsSet st.fs p (.file sIno sM),
                    evs := st.evs ++ [.create p] }
        | .ok dm =>
            if sM > dm.mtime then
              if dm.isDir ∧ (st.fs.find? (fun e => p <+: e.1 ∧ e.1 ≠ p)).isSome
              then .error (.removeFail, st)
              else
                .ok { st with
                        fs := fsSet (st.fs.filter (fun e => e.1 ≠ p)) p
                                (.file sIno sM),
                        evs := st.evs ++ [.update p] }
            else .ok st
        | .eother => .ok st) := rfl

/-- The per-entry keep decision of `clean` on a file binding whose mapped
source entry is known. -/
theorem cleanDecide_file_eq {cfg : Config} {src : Fs} {p : Path}
    {sm : Meta} (hg : fsGet src (cleanEq cfg p) = some sm)
    (dIno dM : Nat) :
    cleanDecide cfg src p (.file dIno dM) =
      (if extOf (lastName p) ≠ ".html" ∧ sm.ino ≠ dIno then .delFile
       else .keep) := by
  unfold cleanDecide
  rw [hg]

theorem cleanDecide_file_none {cfg : Config} {src : Fs} {p : Path}
    (hg : fsGet src (cleanEq cfg p) = none) (dIno dM : Nat) :
    cleanDecide cfg src p (.file dIno dM) = .delFile := by
  unfold cleanDecide
  rw [hg]

theorem img_ne_of_mem {cfg : Config} {src : Fs}
    (himg : src.Pairwise (fun a b => dstPathOf cfg a ≠ dstPathOf cfg b))
    {a b : Path × Meta} (ha : a ∈ src) (hb : b ∈ src) (hab : a ≠ b) :
    dstPathOf cfg a ≠ dstPathOf cfg b := by
  have hsym : Symmetric
      (fun a b : Path × Meta => dstPathOf cfg a ≠ dstPathOf cfg b) :=
    fun x y h heq => h heq.symm
  exact List.Pairwise.forall hsym himg ha hb hab

theorem ino_coh_of_mem {src : Fs}
    (hinoS : src.Pairwise (fun a b => a.2.ino = b.2.ino →
      a.2.isFile = true ∧ b.2.isFile = true ∧ a.2.mtime = b.2.mtime))
    {a b : Path × Meta} (ha : a ∈ src) (hb : b ∈ src) (hab : a ≠ b) :
    a.2.ino = b.2.ino →
      a.2.isFile = true ∧ b.2.isFile = true ∧ a.2.mtime = b.2.mtime := by
  have hsym : Symmetric (fun a b : Path × Meta => a.2.ino = b.2.ino →
      a.2.isFile = true ∧ b.2.isFile = true ∧ a.2.mtime = b.2.mtime) := by
    intro x y h heq
    obtain ⟨h1, h2, h3⟩ := h heq.symm
    exact ⟨h2, h1, h3.symm⟩
  exact List.Pairwise.forall hsym hinoS ha hb hab

/-- A destination path written for a content file is never a source
directory path, given the injective path mapping. -/
theorem no_srcDir_at_buildEq {cfg : Config} {src : Fs}
    (himg : src.Pairwise (fun a b => dstPathOf cfg a ≠ dstPathOf cfg b))
    {p : Path} {sIno sM : Nat} (he : (p, Meta.file sIno sM) ∈ src) :
    isSrcDirB src (buildEq cfg p) = false := by
  by_cases h : isSrcDirB src (buildEq cfg p) = true
  · obtain ⟨i2, t2, hg2⟩ := isSrcDirB_iff.mp h
    have hd : (buildEq cfg p, Meta.dir i2 t2) ∈ src := mem_of_fsGet_eq_some hg2
    have hne2 : (buildEq cfg p, Meta.dir i2 t2) ≠ (p, Meta.file sIno sM) := by
      intro hc
      have := congrArg Prod.snd hc
      exact Meta.noConfusion this
    have := img_ne_of_mem himg hd he hne2
    exact absurd rfl this
  · exact Bool.eq_false_iff.mpr (fun hc => h hc)

theorem buildStep_ok_dir (cfg : Config) (now : Nat) {src : Fs}
    (hnds : (src.map Prod.fst).Nodup)
    (hpar : ∀ e ∈ src, ∀ q ∈ strictPrefixes e.1, isSrcDirB src q = true)
    {st : BState} {p : Path} {di dt : Nat}
    (he : (p, Meta.dir di dt) ∈ src) (hp : p ≠ [])
    (hInv : BuildInv cfg src st) :
    ∃ st2, buildStep cfg now [] [] st (p, .dir di dt) = .ok st2 ∧
      BuildInv cfg src st2 ∧
      SyncedEntry cfg st2.fs (p, .dir di dt) ∧
      st.nextIno ≤ st2.nextIno ∧
      (∀ q mq, fsGet st.fs q = some mq → fsGet st2.fs q = some mq) := by
  obtain ⟨hI1, hI2, hI3, hI4, hI5, hI6, hI7, hI8⟩ := hInv
  have hdirs : ∀ q ∈ (List.range p.length).map (fun i => p.take (i + 1)),
      isSrcDirB src q = true := by
    intro q hq
    rcases mem_mkdirList hq with h1 | h2
    · rw [h1]
      exact isSrcDirB_iff.mpr ⟨di, dt, fsGet_eq_some_of_mem he hnds⟩
    · exact hpar (p, Meta.dir di dt) he q h2
  obtain ⟨st2, hgo, hevs, hinole, hframe, hmem, htgt, hnd2⟩ :=
    mkdirGo_ok now _ st hdirs hI3 hI1
  refine ⟨st2, ?_, ?_, ?_, hinole, hframe⟩
  · rw [buildStep_dir, show mkdirAll now st p =
      mkdirAll.go now st ((List.range p.length).map (fun i => p.take (i + 1)))
      from rfl, hgo]
  · refine ⟨hnd2, ?_, ?_, ?_, ?_, ?_, fun s hs => lt_of_lt_of_le (hI7 s hs) hinole, ?_⟩
    · intro f hf
      rcases hmem f hf with h1 | ⟨i2, hm2, _, _, hq2⟩
      · exact hI2 f h1
      · obtain ⟨q, fm⟩ := f
        simp only at hm2
        rw [hm2]
        exact cleanDecide_keep_of_srcDir (hdirs q hq2) i2 now
    · intro f hf hff
      rcases hmem f hf with h1 | ⟨i2, hm2, _⟩
      · exact hI3 f h1 hff
      · rw [hm2] at hff
        exact Bool.noConfusion hff
    · intro f hf _
      rcases hmem f hf with h1 | ⟨i2, hm2, _, _, hq2⟩
      · exact hI4 f h1 (by
          rcases hmem f hf with h1b | ⟨i3, hm3, _⟩
          · assumption
          · rw [hm3]; rfl)
      · exact hdirs f.1 hq2
    · intro f hf s hs heq
      rcases hmem f hf with h1 | ⟨i2, hm2, hge, _, _⟩
      · exact hI5 f h1 s hs heq
      · rw [hm2] at heq
        have h7 := hI7 s hs
        have heq2 : i2 = s.2.ino := heq
        omega
    · intro f hf
      rcases hmem f hf with h1 | ⟨i2, hm2, _, hlt2, _⟩
      · exact lt_of_lt_of_le (hI6 f h1) hinole
      · rw [hm2]
        exact hlt2
    · intro f hf hff hhtml s hs
      rcases hmem f hf with h1 | ⟨i2, hm2, hge, _, _⟩
      · exact hI8 f h1 hff hhtml s hs
      · rw [hm2] at hff
        exact Bool.noConfusion hff
  · exact htgt p (self_mem_mkdirList hp)

theorem buildStep_ok_content (cfg : Config) (now : Nat) {src : Fs}
    (hnds : (src.map Prod.fst).Nodup)
    (hmt : ∀ e ∈ src, e.2.isFile = true → e.2.mtime ≤ now)
    (himg : src.Pairwise (fun a b => dstPathOf cfg a ≠ dstPathOf cfg b))
    (htpl : cfg.tplOk = true)
    {st : BState} {p : Path} {sIno sM : Nat}
    (he : (p, Meta.file sIno sM) ∈ src) (hp : p ≠ [])
    (hext : extOf (lastName p) = cfg.ext)
    (hInv : BuildInv cfg src st) :
    ∃ st2, buildStep cfg now [] [] st (p, .file sIno sM) = .ok st2 ∧
      BuildInv cfg src st2 ∧
      SyncedEntry cfg st2.fs (p, .file sIno sM) ∧
      st.nextIno ≤ st2.nextIno ∧
      (∀ q mq, fsGet st.fs q = some mq →
        fsGet st2.fs q = some mq ∨ q = buildEq cfg p) := by
  obtain ⟨hI1, hI2, hI3, hI4, hI5, hI6, hI7, hI8⟩ := hInv
  have hfsrc : fsGet src p = some (.file sIno sM) :=
    fsGet_eq_some_of_mem he hnds
  have hsM : sM ≤ now := hmt _ he rfl
  have heqhtml : extOf (lastName (buildEq cfg p)) = ".html" :=
    extOf_lastName_buildEq hext hp
  have hinvq : cleanEq cfg (buildEq cfg p) = p := cleanEq_buildEq hext hp
  have hkeepNew : ∀ i mt,
      cleanDecide cfg src (buildEq cfg p) (.file i mt) = .keep := by
    intro i mt
    rw [cleanDecide_file_eq (by rw [hinvq]; exact hfsrc) i mt,
      if_neg (fun hc => hc.1 heqhtml)]
  have hnodir : isSrcDirB src (buildEq cfg p) = false :=
    no_srcDir_at_buildEq himg he
  match hget : fsGet st.fs (buildEq cfg p) with
  | none =>
    refine ⟨⟨fsSet st.fs (buildEq cfg p) (.file st.nextIno now),
      st.nextIno + 1, st.evs ++ [.create (buildEq cfg p)]⟩, ?_, ?_, ?_, ?_, ?_⟩
    · rw [buildStep_file, if_pos hext, statDst_nil]
      simp only [hget]
      rw [if_pos htpl, if_neg (List.not_mem_nil (buildEq cfg p))]
      rfl
    · refine ⟨nodup_keys_fsSet _ _ hI1, ?_, ?_, ?_, ?_, ?_, ?_, ?_⟩
      · intro f hf
        rcases mem_fsSet hf with h1 | h2
        · rw [h1]
          exact hkeepNew _ _
        · exact hI2 f h2
      · intro f hf hff
        rcases mem_fsSet hf with h1 | h2
        · rw [h1]
          exact hnodir
        · exact hI3 f h2 hff
      · intro f hf hfd
        rcases mem_fsSet hf with h1 | h2
        · rw [h1] at hfd
          exact Bool.noConfusion hfd
        · exact hI4 f h2 hfd
      · intro f hf s hs heq
        rcases mem_fsSet hf with h1 | h2
        · rw [h1] at heq
          have h7 := hI7 s hs
          have heq2 : st.nextIno = s.2.ino := heq
          omega
        · exact hI5 f h2 s hs heq
      · intro f hf
        rcases mem_fsSet hf with h1 | h2
        · rw [h1]
          show st.nextIno < st.nextIno + 1
          omega
        · have := hI6 f h2
          show f.2.ino < st.nextIno + 1
          omega
      · intro s hs
        have := hI7 s hs
        show s.2.ino < st.nextIno + 1
        omega
      · intro f hf hff hhtml s hs
        rcases mem_fsSet hf with h1 | h2
        · rw [h1]
          have := hI7 s hs
          show s.2.ino ≠ st.nextIno
          omega
        · exact hI8 f h2 hff hhtml s hs
    · show if extOf (lastName p) = cfg.ext then
          ∃ i dM, fsGet (fsSet st.fs (buildEq cfg p) (.file st.nextIno now))
            (buildEq cfg p) = some (.file i dM) ∧ sM ≤ dM
        else ∃ dm, fsGet (fsSet st.fs (buildEq cfg p) (.file st.nextIno now))
            p = some dm ∧ sM ≤ dm.mtime
      rw [if_pos hext]
      exact ⟨st.nextIno, now, fsGet_fsSet_self _ _ _, hsM⟩
    · show st.nextIno ≤ st.nextIno + 1
      omega
    · intro q mq hq
      by_cases hqe : q = buildEq cfg p
      · exact Or.inr hqe
      · rw [show fsGet (fsSet st.fs (buildEq cfg p) (.file st.nextIno now)) q
          = fsGet st.fs q from fsGet_fsSet_ne _ _ _ hqe]
        exact Or.inl hq
  | some (.dir i2 t2) =>
    have h4 := hI4 (buildEq cfg p, .dir i2 t2) (mem_of_fsGet_eq_some hget) rfl
    rw [hnodir] at h4
    exact Bool.noConfusion h4
  | some (.file dIno dM) =>
    have hmemD : (buildEq cfg p, Meta.file dIno dM) ∈ st.fs :=
      mem_of_fsGet_eq_some hget
    have halias : ∀ s ∈ src, s.2.ino ≠ dIno := hI8 _ hmemD rfl heqhtml
    have hdlt : dIno < st.nextIno := hI6 _ hmemD
    by_cases hstale : sM > dM
    · have hstale2 : sM > (Meta.file dIno dM).mtime := hstale
      refine ⟨⟨fsSet st.fs (buildEq cfg p) (.file dIno now), st.nextIno,
        st.evs ++ [.update (buildEq cfg p)]⟩, ?_, ?_, ?_, le_refl _, ?_⟩
      · rw [buildStep_file, if_pos hext, statDst_nil]
        simp only [hget, Meta.mtime]
        rw [if_pos hstale, if_pos htpl,
          if_neg (List.not_mem_nil (buildEq cfg p))]
        rfl
      · refine ⟨nodup_keys_fsSet _ _ hI1, ?_, ?_, ?_, ?_, ?_, hI7, ?_⟩
        · intro f hf
          rcases mem_fsSet hf with h1 | h2
          · rw [h1]
            exact hkeepNew _ _
          · exact hI2 f h2
        · intro f hf hff
          rcases mem_fsSet hf with h1 | h2
          · rw [h1]
            exact hnodir
          · exact hI3 f h2 hff
        · intro f hf hfd
          rcases mem_fsSet hf with h1 | h2
          · rw [h1] at hfd
            exact Bool.noConfusion hfd
          · exact hI4 f h2 hfd
        · intro f hf s hs heq
          rcases mem_fsSet hf with h1 | h2
          · rw [h1] at heq
            have heq2 : dIno = s.2.ino := heq
            exact absurd heq2.symm (halias s hs)
          · exact hI5 f h2 s hs heq
        · intro f hf
          rcases mem_fsSet hf with h1 | h2
          · rw [h1]
            exact hdlt
          · exact hI6 f h2
        · intro f hf hff hhtml s hs
          rcases mem_fsSet hf with h1 | h2
          · rw [h1]
            show s.2.ino ≠ dIno
            exact halias s hs
          · exact hI8 f h2 hff hhtml s hs
      · show if extOf (lastName p) = cfg.ext then
            ∃ i dM2, fsGet (fsSet st.fs (buildEq cfg p) (.file dIno now))
              (buildEq cfg p) = some (.file i dM2) ∧ sM ≤ dM2
          else ∃ dm, fsGet (fsSet st.fs (buildEq cfg p) (.file dIno now))
              p = some dm ∧ sM ≤ dm.mtime
        rw [if_pos hext]
        exact ⟨dIno, now, fsGet_fsSet_self _ _ _, hsM⟩
      · intro q mq hq
        by_cases hqe : q = buildEq cfg p
        · exact Or.inr hqe
        · rw [show fsGet (fsSet st.fs (buildEq cfg p) (.file dIno now)) q
            = fsGet st.fs q from fsGet_fsSet_ne _ _ _ hqe]
          exact Or.inl hq
    · have hstale2 : ¬ sM > (Meta.file dIno dM).mtime := hstale
      refine ⟨st, ?_, ⟨hI1, hI2, hI3, hI4, hI5, hI6, hI7, hI8⟩, ?_,
        le_refl _, fun q mq hq => Or.inl hq⟩
      · rw [buildStep_file, if_pos hext, statDst_nil]
        simp only [hget, Meta.mtime]
        rw [if_neg hstale]
      · show if extOf (lastName p) = cfg.ext then
            ∃ i dM2, fsGet st.fs (buildEq cfg p) = some (.file i dM2) ∧
              sM ≤ dM2
          else ∃ dm, fsGet st.fs p = some dm ∧ sM ≤ dm.mtime
        rw [if_pos hext]
        exact ⟨dIno, dM, hget, by omega⟩

theorem buildStep_ok_resource (cfg : Config) (now : Nat) {src : Fs}
    (hnds : (src.map Prod.fst).Nodup)
    (hinoS : src.Pairwise (fun a b => a.2.ino = b.2.ino →
      a.2.isFile = true ∧ b.2.isFile = true ∧ a.2.mtime = b.2.mtime))
    (hh7 : ∀ e ∈ src, e.2.isFile = true → extOf (lastName e.1) ≠ ".html")
    {st : BState} {p : Path} {sIno sM : Nat}
    (he : (p, Meta.file sIno sM) ∈ src)
    (hext : ¬ extOf (lastName p) = cfg.ext)
    (hInv : BuildInv cfg src st) :
    ∃ st2, buildStep cfg now [] [] st (p, .file sIno sM) = .ok st2 ∧
      BuildInv cfg src st2 ∧
      SyncedEntry cfg st2.fs (p, .file sIno sM) ∧
      st.nextIno ≤ st2.nextIno ∧
      (∀ q mq, fsGet st.fs q = some mq →
        fsGet st2.fs q = some mq ∨ q = p) := by
  obtain ⟨hI1, hI2, hI3, hI4, hI5, hI6, hI7, hI8⟩ := hInv
  have hfsrc : fsGet src p = some (.file sIno sM) :=
    fsGet_eq_some_of_mem he hnds
  have hexthtml : extOf (lastName p) ≠ ".html" := hh7 _ he rfl
  have hceq : cleanEq cfg p = p := cleanEq_ne hexthtml
  match hget : fsGet st.fs p with
  | none =>
    refine ⟨⟨fsSet st.fs p (.file sIno sM), st.nextIno,
      st.evs ++ [.create p]⟩, ?_, ?_, ?_, le_refl _, ?_⟩
    · rw [buildStep_file, if_neg hext, statDst_nil]
      simp only [hget]
    · refine ⟨nodup_keys_fsSet _ _ hI1, ?_, ?_, ?_, ?_, ?_, hI7, ?_⟩
      · intro f hf
        rcases mem_fsSet hf with h1 | h2
        · rw [h1, cleanDecide_file_eq (by rw [hceq]; exact hfsrc) sIno sM]
          rw [if_neg (fun hc => hc.2 rfl)]
        · exact hI2 f h2
      · intro f hf hff
        rcases mem_fsSet hf with h1 | h2
        · rw [h1]
          exact isSrcDirB_false_of_file hfsrc
        · exact hI3 f h2 hff
      · intro f hf hfd
        rcases mem_fsSet hf with h1 | h2
        · rw [h1] at hfd
          exact Bool.noConfusion hfd
        · exact hI4 f h2 hfd
      · intro f hf s hs heq
        rcases mem_fsSet hf with h1 | h2
        · rw [h1] at heq ⊢
          have heq2 : sIno = s.2.ino := heq
          by_cases hse : s = (p, Meta.file sIno sM)
          · rw [hse]
            exact ⟨rfl, rfl, rfl⟩
          · have hco := ino_coh_of_mem hinoS he hs
              (fun hc => hse hc.symm) heq2
            exact ⟨rfl, hco.2.1, hco.2.2⟩
        · exact hI5 f h2 s hs heq
      · intro f hf
        rcases mem_fsSet hf with h1 | h2
        · rw [h1]
          exact hI7 _ he
        · exact hI6 f h2
      · intro f hf hff hhtml s hs
        rcases mem_fsSet hf with h1 | h2
        · rw [h1] at hhtml
          exact absurd hhtml hexthtml
        · exact hI8 f h2 hff hhtml s hs
    · show if extOf (lastName p) = cfg.ext then
          ∃ i dM, fsGet (fsSet st.fs p (.file sIno sM)) (buildEq cfg p) =
            some (.file i dM) ∧ sM ≤ dM
        else ∃ dm, fsGet (fsSet st.fs p (.file sIno sM)) p = some dm ∧
          sM ≤ dm.mtime
      rw [if_neg hext]
      exact ⟨.file sIno sM, fsGet_fsSet_self _ _ _, le_refl _⟩
    · intro q mq hq
      by_cases hqe : q = p
      · exact Or.inr hqe
      · rw [show fsGet (fsSet st.fs p (.file sIno sM)) q = fsGet st.fs q
          from fsGet_fsSet_ne _ _ _ hqe]
        exact Or.inl hq
  | some (.dir i2 t2) =>
    have h4 := hI4 (p, .dir i2 t2) (mem_of_fsGet_eq_some hget) rfl
    obtain ⟨i3, t3, hg3⟩ := isSrcDirB_iff.mp h4
    rw [hfsrc] at hg3
    cases hg3
  | some (.file dIno dM) =>
    have hkeep := hI2 (p, .file dIno dM) (mem_of_fsGet_eq_some hget)
    rw [cleanDecide_file_eq (by rw [hceq]; exact hfsrc) dIno dM] at hkeep
    have hino : sIno = dIno := by
      by_contra hne2
      rw [if_pos ⟨hexthtml, hne2⟩] at hkeep
      exact CleanAct.noConfusion hkeep
    have hco := hI5 (p, .file dIno dM) (mem_of_fsGet_eq_some hget)
      (p, .file sIno sM) he (by show dIno = sIno; omega)
    have hdm : dM = sM := hco.2.2
    have hnstale : ¬ sM > dM := by omega
    refine ⟨st, ?_, ⟨hI1, hI2, hI3, hI4, hI5, hI6, hI7, hI8⟩, ?_,
      le_refl _, fun q mq hq => Or.inl hq⟩
    · rw [buildStep_file, if_neg hext, statDst_nil]
      simp only [hget, Meta.mtime]
      rw [if_neg hnstale]
    · show if extOf (lastName p) = cfg.ext then
          ∃ i dM2, fsGet st.fs (buildEq cfg p) = some (.file i dM2) ∧
            sM ≤ dM2
        else ∃ dm, fsGet st.fs p = some dm ∧ sM ≤ dm.mtime
      rw [if_neg hext]
      exact ⟨.file dIno dM, hget, by show sM ≤ dM; omega⟩

theorem buildStep_ok (cfg : Config) (now : Nat) {src : Fs}
    (hnds : (src.map Prod.fst).Nodup)
    (hne : ∀ e ∈ src, e.1 ≠ [])
    (hpar : ∀ e ∈ src, ∀ q ∈ strictPrefixes e.1, isSrcDirB src q = true)
    (hinoS : src.Pairwise (fun a b => a.2.ino = b.2.ino →
      a.2.isFile = true ∧ b.2.isFile = true ∧ a.2.mtime = b.2.mtime))
    (hmt : ∀ e ∈ src, e.2.isFile = true → e.2.mtime ≤ now)
    (himg : src.Pairwise (fun a b => dstPathOf cfg a ≠ dstPathOf cfg b))
    (hh7 : ∀ e ∈ src, e.2.isFile = true → extOf (lastName e.1) ≠ ".html")
    (htpl : cfg.tplOk = true)
    {st : BState} {e : Path × Meta} (he : e ∈ src)
    (hInv : BuildInv cfg src st) :
    ∃ st2, buildStep cfg now [] [] st e = .ok st2 ∧
      BuildInv cfg src st2 ∧
      SyncedEntry cfg st2.fs e ∧
      st.nextIno ≤ st2.nextIno ∧
      (∀ q mq, fsGet st.fs q = some mq →
        fsGet st2.fs q = some mq ∨
          (e.2.isFile = true ∧ q = dstPathOf cfg e)) := by
  obtain ⟨p, m⟩ := e
  match m with
  | .dir di dt =>
    obtain ⟨st2, h1, h2, h3, h4, h5⟩ := buildStep_ok_dir cfg now hnds hpar
      he (hne _ he) hInv
    exact ⟨st2, h1, h2, h3, h4, fun q mq hq => Or.inl (h5 q mq hq)⟩
  | .file sIno sM =>
    by_cases hext : extOf (lastName p) = cfg.ext
    · obtain ⟨st2, h1, h2, h3, h4, h5⟩ := buildStep_ok_content cfg now hnds
        hmt himg htpl he (hne _ he) hext hInv
      refine ⟨st2, h1, h2, h3, h4, fun q mq hq => ?_⟩
      rcases h5 q mq hq with hl | hr
      · exact Or.inl hl
      · exact Or.inr ⟨rfl, by rw [hr]; rfl⟩
    · obtain ⟨st2, h1, h2, h3, h4, h5⟩ := buildStep_ok_resource cfg now hnds
        hinoS hh7 he hext hInv
      refine ⟨st2, h1, h2, h3, h4, fun q mq hq => ?_⟩
      rcases h5 q mq hq with hl | hr
      · exact Or.inl hl
      · refine Or.inr ⟨rfl, ?_⟩
        show q = buildEq cfg p
        rw [buildEq_ne hext, hr]

theorem syncedEntry_persist {cfg : Config} {fs fs2 : Fs}
    {rest : List (Path × Meta)} {e : Path × Meta}
    (hs : SyncedEntry cfg fs e)
    (hframe : ∀ q mq, fsGet fs q = some mq → fsGet fs2 q = some mq ∨
      ∃ f ∈ rest, f.2.isFile = true ∧ q = dstPathOf cfg f)
    (hneq : ∀ f ∈ rest, dstPathOf cfg f ≠ dstPathOf cfg e) :
    SyncedEntry cfg fs2 e := by
  obtain ⟨p, m⟩ := e
  match m with
  | .dir di dt =>
    obtain ⟨i, t, hg⟩ := hs
    rcases hframe p _ hg with hl | ⟨f, hf, _, hq⟩
    · exact ⟨i, t, hl⟩
    · exact absurd (show dstPathOf cfg f = dstPathOf cfg (p, Meta.dir di dt)
        from hq.symm) (hneq f hf)
  | .file sIno sM =>
    by_cases hext : extOf (lastName p) = cfg.ext
    · have hs2 : ∃ i dM, fsGet fs (buildEq cfg p) = some (.file i dM) ∧
          sM ≤ dM := by
        have hx : SyncedEntry cfg fs (p, Meta.file sIno sM) = if
            extOf (lastName p) = cfg.ext then
            ∃ i dM, fsGet fs (buildEq cfg p) = some (.file i dM) ∧ sM ≤ dM
          else ∃ dm, fsGet fs p = some dm ∧ sM ≤ dm.mtime := rfl
        rw [hx, if_pos hext] at hs
        exact hs
      obtain ⟨i, dM, hg, hle⟩ := hs2
      have hgoal : ∃ i2 dM2, fsGet fs2 (buildEq cfg p) =
          some (.file i2 dM2) ∧ sM ≤ dM2 := by
        rcases hframe _ _ hg with hl | ⟨f, hf, _, hq⟩
        · exact ⟨i, dM, hl, hle⟩
        · exact absurd (show dstPathOf cfg f =
            dstPathOf cfg (p, Meta.file sIno sM) from hq.symm) (hneq f hf)
      show if extOf (lastName p) = cfg.ext then
          ∃ i dM, fsGet fs2 (buildEq cfg p) = some (.file i dM) ∧ sM ≤ dM
        else ∃ dm, fsGet fs2 p = some dm ∧ sM ≤ dm.mtime
      rw [if_pos hext]
      exact hgoal
    · have hs2 : ∃ dm, fsGet fs p = some dm ∧ sM ≤ dm.mtime := by
        have hx : SyncedEntry cfg fs (p, Meta.file sIno sM) = if
            extOf (lastName p) = cfg.ext then
            ∃ i dM, fsGet fs (buildEq cfg p) = some (.file i dM) ∧ sM ≤ dM
          else ∃ dm, fsGet fs p = some dm ∧ sM ≤ dm.mtime := rfl
        rw [hx, if_neg hext] at hs
        exact hs
      obtain ⟨dm, hg, hle⟩ := hs2
      have hgoal : ∃ dm2, fsGet fs2 p = some dm2 ∧ sM ≤ dm2.mtime := by
        rcases hframe _ _ hg with hl | ⟨f, hf, _, hq⟩
        · exact ⟨dm, hl, hle⟩
        · refine absurd (show dstPathOf cfg f =
            dstPathOf cfg (p, Meta.file sIno sM) from ?_) (hneq f hf)
          show dstPathOf cfg f = buildEq cfg p
          rw [buildEq_ne hext, hq]
      show if extOf (lastName p) = cfg.ext then
          ∃ i dM, fsGet fs2 (buildEq cfg p) = some (.file i dM) ∧ sM ≤ dM
        else ∃ dm, fsGet fs2 p = some dm ∧ sM ≤ dm.mtime
      rw [if_neg hext]
      exact hgoal

theorem buildFold_ok (cfg : Config) (now : Nat) {src : Fs}
    (hnds : (src.map Prod.fst).Nodup)
    (hne : ∀ e ∈ src, e.1 ≠ [])
    (hpar : ∀ e ∈ src, ∀ q ∈ strictPrefixes e.1, isSrcDirB src q = true)
    (hinoS : src.Pairwise (fun a b => a.2.ino = b.2.ino →
      a.2.isFile = true ∧ b.2.isFile = true ∧ a.2.mtime = b.2.mtime))
    (hmt : ∀ e ∈ src, e.2.isFile = true → e.2.mtime ≤ now)
    (himg : src.Pairwise (fun a b => dstPathOf cfg a ≠ dstPathOf cfg b))
    (hh7 : ∀ e ∈ src, e.2.isFile = true → extOf (lastName e.1) ≠ ".html")
    (htpl : cfg.tplOk = true) :
    ∀ (l : List (Path × Meta)) (st : BState),
    (∀ e ∈ l, e ∈ src) →
    l.Pairwise (fun a b => dstPathOf cfg a ≠ dstPathOf cfg b) →
    BuildInv cfg src st →
    ∃ st2, buildFold cfg now [] [] l st = (st2, none) ∧
      BuildInv cfg src st2 ∧
      (∀ e ∈ l, SyncedEntry cfg st2.fs e) ∧
      (∀ q mq, fsGet st.fs q = some mq →
        fsGet st2.fs q = some mq ∨
          ∃ e ∈ l, e.2.isFile = true ∧ q = dstPathOf cfg e)
  | [], st, _, _, hInv =>
    ⟨st, rfl, hInv, fun e he2 => absurd he2 (List.not_mem_nil e),
      fun q mq hq => Or.inl hq⟩
  | e :: rest, st, hmem, hpw, hInv => by
    obtain ⟨st1, hstep, hInv1, hsync1, _, hframe1⟩ :=
      buildStep_ok cfg now hnds hne hpar hinoS hmt himg hh7 htpl
        (hmem e (List.mem_cons.mpr (Or.inl rfl))) hInv
    obtain ⟨hhead, htail⟩ := List.pairwise_cons.mp hpw
    obtain ⟨st2, hfold, hInv2, hsync2, hframe2⟩ :=
      buildFold_ok cfg now hnds hne hpar hinoS hmt himg hh7 htpl rest st1
        (fun f hf => hmem f (List.mem_cons_of_mem _ hf)) htail hInv1
    refine ⟨st2, ?_, hInv2, ?_, ?_⟩
    · rw [buildFold_cons]
      simp only [hstep]
      exact hfold
    · intro f hf
      rcases List.mem_cons.mp hf with h1 | h2
      · cases h1
        exact syncedEntry_persist hsync1 hframe2
          (fun g hg => (hhead g hg).symm)
      · exact hsync2 f h2
    · intro q mq hq
      rcases hframe1 q mq hq with hl | ⟨hfile, hq2⟩
      · rcases hframe2 q mq hl with hl2 | ⟨f, hf, h3, h4⟩
        · exact Or.inl hl2
        · exact Or.inr ⟨f, List.mem_cons_of_mem _ hf, h3, h4⟩
      · exact Or.inr ⟨e, List.mem_cons.mpr (Or.inl rfl), hfile, hq2⟩

theorem mkdirGo_noop (now : Nat) :
    ∀ (qs : List Path) (st : BState),
    (∀ q ∈ qs, ∃ i t, fsGet st.fs q = some (.dir i t)) →
    mkdirAll.go now st qs = .ok st
  | [], st, _ => rfl
  | q :: qs, st, h => by
    obtain ⟨i, t, hg⟩ := h q (List.mem_cons.mpr (Or.inl rfl))
    rw [show mkdirAll.go now st (q :: qs) =
      (match fsGet st.fs q with
       | some (.dir _ _) => mkdirAll.go now st qs
       | some (.file _ _) => .error .notDir
       | none =>
          mkdirAll.go now
            { st with
                fs := fsSet st.fs q (.dir st.nextIno now),
                nextIno := st.nextIno + 1 } qs) from rfl, hg]
    exact mkdirGo_noop now qs st (fun x hx => h x (List.mem_cons_of_mem _ hx))

theorem syncedEntry_congr {cfg : Config} {fs fs2 : Fs} {e : Path × Meta}
    (hq : ∀ q, fsGet fs q = fsGet fs2 q) (hs : SyncedEntry cfg fs e) :
    SyncedEntry cfg fs2 e := by
  obtain ⟨p, m⟩ := e
  match m with
  | .dir di dt =>
    obtain ⟨i, t, hg⟩ := hs
    exact ⟨i, t, by rw [← hq]; exact hg⟩
  | .file sIno sM =>
    have hx : ∀ (fs3 : Fs), SyncedEntry cfg fs3 (p, Meta.file sIno sM) = if
        extOf (lastName p) = cfg.ext then
        ∃ i dM, fsGet fs3 (buildEq cfg p) = some (.file i dM) ∧ sM ≤ dM
      else ∃ dm, fsGet fs3 p = some dm ∧ sM ≤ dm.mtime := fun fs3 => rfl
    rw [hx] at hs
    rw [hx]
    by_cases hext : extOf (lastName p) = cfg.ext
    · rw [if_pos hext] at hs ⊢
      obtain ⟨i, dM, hg, hle⟩ := hs
      exact ⟨i, dM, by rw [← hq]; exact hg, hle⟩
    · rw [if_neg hext] at hs ⊢
      obtain ⟨dm, hg, hle⟩ := hs
      exact ⟨dm, by rw [← hq]; exact hg, hle⟩

theorem buildFold_noop (cfg : Config) (now : Nat) {src : Fs}
    (hnds : (src.map Prod.fst).Nodup)
    (hpar : ∀ e ∈ src, ∀ q ∈ strictPrefixes e.1, isSrcDirB src q = true) :
    ∀ (l : List (Path × Meta)) (st : BState),
    (∀ e ∈ l, e ∈ src) →
    (∀ s ∈ src, SyncedEntry cfg st.fs s) →
    buildFold cfg now [] [] l st = (st, none)
  | [], st, _, _ => rfl
  | e :: rest, st, hmem, hsync => by
    have he : e ∈ src := hmem e (List.mem_cons.mpr (Or.inl rfl))
    have hse := hsync e he
    obtain ⟨p, m⟩ := e
    have hstep : buildStep cfg now [] [] st (p, m) = .ok st := by
      match m with
      | .dir di dt =>
        rw [buildStep_dir, show mkdirAll now st p = mkdirAll.go now st
          ((List.range p.length).map (fun i => p.take (i + 1))) from rfl,
          mkdirGo_noop now _ st ?_]
        intro q hq
        rcases mem_mkdirList hq with h1 | h2
        · rw [h1]
          exact hse
        · obtain ⟨i3, t3, hg3⟩ :=
            isSrcDirB_iff.mp (hpar (p, .dir di dt) he q h2)
          exact hsync (q, .dir i3 t3) (mem_of_fsGet_eq_some hg3)
      | .file sIno sM =>
        by_cases hext : extOf (lastName p) = cfg.ext
        · have hs2 : ∃ i dM, fsGet st.fs (buildEq cfg p) =
              some (.file i dM) ∧ sM ≤ dM := by
            have hx : SyncedEntry cfg st.fs (p, Meta.file sIno sM) = if
                extOf (lastName p) = cfg.ext then
                ∃ i dM, fsGet st.fs (buildEq cfg p) = some (.file i dM) ∧
                  sM ≤ dM
              else ∃ dm, fsGet st.fs p = some dm ∧ sM ≤ dm.mtime := rfl
            rw [hx, if_pos hext] at hse
            exact hse
          obtain ⟨i, dM, hg, hle⟩ := hs2
          rw [buildStep_file, if_pos hext, statDst_nil]
          simp only [hg, Meta.mtime]
          rw [if_neg (by omega)]
        · have hs2 : ∃ dm, fsGet st.fs p = some dm ∧ sM ≤ dm.mtime := by
            have hx : SyncedEntry cfg st.fs (p, Meta.file sIno sM) = if
                extOf (lastName p) = cfg.ext then
                ∃ i dM, fsGet st.fs (buildEq cfg p) = some (.file i dM) ∧
                  sM ≤ dM
              else ∃ dm, fsGet st.fs p = some dm ∧ sM ≤ dm.mtime := rfl
            rw [hx, if_neg hext] at hse
            exact hse
          obtain ⟨dm, hg, hle⟩ := hs2
          rw [buildStep_file, if_neg hext, statDst_nil]
          simp only [hg]
          rw [if_neg (by omega)]
    rw [buildFold_cons]
    simp only [hstep]
    exact buildFold_noop cfg now hnds hpar rest st
      (fun f hf => hmem f (List.mem_cons_of_mem _ hf)) hsync

theorem insertSorted_perm (e : Path × Meta) (l : List (Path × Meta)) :
    (sortPaths.insertSorted e l).Perm (e :: l) := by
  induction l with
  | nil => rfl
  | cons x xs ih =>
    rw [sortPaths.insertSorted]
    by_cases h : pathLe e.1 x.1
    · rw [if_pos h]
    · rw [if_neg h]
      exact (ih.cons x).trans (List.Perm.swap e x xs)

theorem sortPaths_perm (l : List (Path × Meta)) : (sortPaths l).Perm l := by
  induction l with
  | nil => rfl
  | cons x xs ih =>
    have : sortPaths (x :: xs) = sortPaths.insertSorted x (sortPaths xs) :=
      rfl
    rw [this]
    exact (insertSorted_perm x (sortPaths xs)).trans (ih.cons x)

/-! # Claims -/

/-- C3: `buildPage` spawns one child per command block with
`exec.Command(cmdArgs[0], cmdArgs[len(config.RunCmd)-1:]...)`, giving the
child the argument vector `[cmdArgs[0]] ++ cmdArgs[len(RunCmd)-1 ..]`.  For
a RunCommand of length 3 the middle element is dropped, and for length 1
the command name is duplicated; only for length 2 does the child receive
the full RunCommand followed by the command body, as the specification
claims for every positive length. -/
theorem c3_spawn_argv :
    spawnArgv ["env", "-i", "sh"] "b" = ["env", "sh", "b"] ∧
    spawnArgv ["sh"] "b" = ["sh", "sh", "b"] ∧
    spawnArgv ["bash", "-c"] "b" = ["bash", "-c", "b"] ∧
    spawnArgv ["env", "-i", "sh"] "b" ≠ ["env", "-i", "sh"] ++ ["b"] := by
  refine ⟨rfl, rfl, rfl, ?_⟩
  decide

/-- C4: a non-directory destination entry is deleted by `clean` exactly
when its mapped source path (via the `.html` inverse extension mapping)
does not exist, or the entry is not a built document and its inode differs
from the mapped source entry's inode; a built document (`.html`) whose
mapped source exists is always kept; the per-file decision is never a
subtree deletion. -/
theorem c4_clean_file_decision (cfg : Config) (src : Fs) (p : Path)
    (dIno dM : Nat) :
    (cleanDecide cfg src p (.file dIno dM) = .delFile ↔
      fsGet src (cleanEq cfg p) = none ∨
      ∃ sm, fsGet src (cleanEq cfg p) = some sm ∧
        extOf (lastName p) ≠ ".html" ∧ sm.ino ≠ dIno) ∧
    (cleanDecide cfg src p (.file dIno dM) = .delFile ∨
      cleanDecide cfg src p (.file dIno dM) = .keep) ∧
    (extOf (lastName p) = ".html" →
      ∀ sm, fsGet src (cleanEq cfg p) = some sm →
        cleanDecide cfg src p (.file dIno dM) = .keep) := by
  match hg : fsGet src (cleanEq cfg p) with
  | none =>
    rw [cleanDecide_file_none hg dIno dM]
    refine ⟨⟨fun _ => Or.inl rfl, fun _ => rfl⟩, Or.inl rfl, ?_⟩
    intro _ sm hsm
    exact Option.noConfusion hsm
  | some sm =>
    rw [cleanDecide_file_eq hg dIno dM]
    by_cases hc : extOf (lastName p) ≠ ".html" ∧ sm.ino ≠ dIno
    · rw [if_pos hc]
      refine ⟨⟨fun _ => Or.inr ⟨sm, rfl, hc⟩, fun _ => rfl⟩, Or.inl rfl, ?_⟩
      intro hh _ _
      exact absurd hh hc.1
    · rw [if_neg hc]
      refine ⟨⟨fun hk => CleanAct.noConfusion hk, ?_⟩, Or.inr rfl,
        fun _ _ _ => rfl⟩
      rintro (h1 | ⟨sm2, hsm2, hh, hi⟩)
      · exact Option.noConfusion h1
      · cases Option.some.inj hsm2
        exact absurd ⟨hh, hi⟩ hc

/-- C4 witness: on the concrete source tree `srcW`, an orphan `.png` is
deleted, a built document with live source is kept, and a resource with
matching inode is kept. -/
theorem c4_clean_file_decision_witness :
    cleanDecide cfgMd srcW ["gone.png"] (.file 9 0) = .delFile ∧
    cleanDecide cfgMd srcW ["d", "x.html"] (.file 9 0) = .keep ∧
    cleanDecide cfgMd srcW ["b.png"] (.file 3 0) = .keep := by
  refine ⟨?_, ?_, ?_⟩
  · exact (c4_clean_file_decision cfgMd srcW ["gone.png"] 9 0).1.mpr
      (Or.inl (by decide))
  · exact (c4_clean_file_decision cfgMd srcW ["d", "x.html"] 9 0).2.2
      (by decide) (.file 2 5) (by decide)
  · have h := (c4_clean_file_decision cfgMd srcW ["b.png"] 3 0).2.1
    rcases h with h1 | h2
    · have := (c4_clean_file_decision cfgMd srcW ["b.png"] 3 0).1.mp h1
      rcases this with ha | ⟨sm, hsm, _, hi⟩
      · exact absurd ha (by decide)
      · have hx : sm = Meta.file 3 5 := by
          have hb : fsGet srcW (cleanEq cfgMd ["b.png"]) =
            some (Meta.file 3 5) := by decide
          rw [hb] at hsm
          exact (Option.some.inj hsm).symm
        rw [hx] at hi
        exact absurd rfl hi
    · exact h2

/-- C10: the reconciler's per-entry decision is total when every source
stat either succeeds or fails with non-existence; when the stat fails with
any other error, the Go code reads `srcStat.Ino` resp. `srcInfo.IsDir()`
from a nil pointer (modelled as `none`) for non-built files and for
directories, while a built document is unaffected because `&&`/`||`
short-circuiting never reaches the inode comparison. -/
theorem c10_nil_deref :
    (∀ (name : String) (dstIno : Nat) (m : Meta),
      cleanFileDecide name (.ok m) dstIno ≠ none ∧
      cleanFileDecide name .enoent dstIno ≠ none ∧
      cleanDirDecide (.ok m) ≠ none ∧
      cleanDirDecide .enoent ≠ none) ∧
    (∀ (name : String) (dstIno : Nat), extOf name ≠ ".html" →
      cleanFileDecide name .eother dstIno = none) ∧
    cleanDirDecide .eother = none ∧
    (∀ (name : String) (dstIno : Nat), extOf name = ".html" →
      cleanFileDecide name .eother dstIno = some false) := by
  refine ⟨?_, ?_, rfl, ?_⟩
  · intro name dstIno m
    refine ⟨?_, by simp [cleanFileDecide], by simp [cleanDirDecide],
      by simp [cleanDirDecide]⟩
    show (some (extOf name ≠ ".html" ∧ m.ino ≠ dstIno) :
      Option Bool) ≠ none
    simp
  · intro name dstIno h
    show (if extOf name = ".html" then some false else none) = none
    rw [if_neg h]
  · intro name dstIno h
    show (if extOf name = ".html" then some false else none) = some false
    rw [if_pos h]

/-- C10 witness: at a concrete non-built name and a failing stat, the
decision dereferences nil; at a built name it does not. -/
theorem c10_nil_deref_witness :
    cleanFileDecide "logo.png" .eother 7 = none ∧
    cleanFileDecide "page.html" .eother 7 = some false ∧
    cleanFileDecide "logo.png" .enoent 7 ≠ none := by
  refine ⟨?_, ?_, ?_⟩
  · exact c10_nil_deref.2.1 "logo.png" 7 (by decide)
  · exact c10_nil_deref.2.2.2 "page.html" 7 (by decide)
  · exact (c10_nil_deref.1 "logo.png" 7 (.file 0 0)).2.1

/-- C6 counterexample: in the document whose closing-marker line carries
one leading space, the specification's reading (`specHasBlock`, both
markers may have leading whitespace) recognizes a command block, but the
code's scanner — the regexp requires `\x7d%` immediately after the line
start — matches nothing and the document is left unchanged. -/
theorem c6_counterexample :
    specHasBlock (splitLines docWsClose) = true ∧
    expand oracleXX (String.mk docWsClose) = String.mk docWsClose := by
  constructor
  · decide
  · decide

/-- C6 amended: a command block is recognized when it is opened by a line
whose first non-whitespace content is the opening marker (the match may
swallow preceding whitespace, including earlier blank lines) and closed by
the earliest later line that begins with the closing marker at column
zero, with no leading whitespace; the body is everything after the opening
marker up to the start of the closing line (including the newline before
it); a document with no column-zero closing-marker line has no blocks and
is left unchanged. -/
theorem c6_amended :
    (∀ (oracle : String → CmdRes) (w b r : List Char),
      (∀ c ∈ w, isWs c = true) → findClose b = none →
      expandGo oracle true
        (w ++ '%' :: '\x7b' :: (b ++ '\n' :: '\x7d' :: '%' :: r)) =
        blockOut oracle (b ++ ['\n']) ++ expandGo oracle false r) ∧
    (∀ (oracle : String → CmdRes) (atStart : Bool) (s : List Char),
      findClose s = none → expandGo oracle atStart s = s) :=
  ⟨fun oracle _ _ r hw hb => expandGo_subst oracle r hw hb,
   fun oracle atStart _ h => expandGo_noClose oracle atStart h⟩

/-- C6 amended witness: a concrete block with a whitespace-indented opener
and column-zero closer is substituted, and the whitespace-indented-closer
document is left unchanged. -/
theorem c6_amended_witness :
    expandGo oracleXX true
      ([' '] ++ '%' :: '\x7b' :: ("echo".data ++ '\n' :: '\x7d' :: '%' ::
        "t".data)) =
      blockOut oracleXX ("echo".data ++ ['\n']) ++
        expandGo oracleXX false "t".data ∧
    expandGo oracleXX false docWsClose = docWsClose :=
  ⟨c6_amended.1 oracleXX [' '] "echo".data "t".data (by decide) (by decide),
   c6_amended.2 oracleXX false docWsClose (by decide)⟩

/-- C7: after a successful template read, `buildPage` returns nil no
matter what the block commands do; a failing block's error description is
substituted in place of that block's output while scanning continues after
the block; and on the concrete two-block document the first (failing)
block degrades to `ERR` while the second block's standard output `OUT` and
the surrounding text are written intact. -/
theorem c7_failing_block :
    (∀ (t : String) (oracle : String → CmdRes),
      buildPage (.ok t) oracle = .ok (expand oracle t)) ∧
    (∀ (oracle : String → CmdRes) (w b r : List Char) (e : String),
      (∀ c ∈ w, isWs c = true) → findClose b = none →
      oracle (String.mk (b ++ ['\n'])) = .fail e →
      expandGo oracle true
        (w ++ '%' :: '\x7b' :: (b ++ '\n' :: '\x7d' :: '%' :: r)) =
        e.data ++ expandGo oracle false r) ∧
    expand oracleTwo (String.mk docTwoBlocks) = "A\nERR\nmid\nOUT\nend" := by
  refine ⟨fun t oracle => rfl, ?_, by decide⟩
  intro oracle w b r e hw hb ho
  rw [expandGo_subst oracle r hw hb]
  unfold blockOut
  rw [ho]

/-- C7 witness: the failing-block substitution at a concrete block. -/
theorem c7_failing_block_witness :
    buildPage (.ok "x") oracleTwo = .ok (expand oracleTwo "x") ∧
    expandGo (fun _ => CmdRes.fail "boom") true
      ([] ++ '%' :: '\x7b' :: ("cmd".data ++ '\n' :: '\x7d' :: '%' ::
        "z".data)) =
      "boom".data ++ expandGo (fun _ => CmdRes.fail "boom") false "z".data :=
  ⟨c7_failing_block.1 "x" oracleTwo,
   c7_failing_block.2.1 (fun _ => CmdRes.fail "boom") [] "cmd".data
     "z".data "boom" (by decide) (by decide) rfl⟩

/-- C1 counterexample: with an orphan destination directory, `clean`
returns an error, yet `build` does not return that error — it proceeds to
walk the source tree (the hard link for `x.png` is created and reported)
and returns nil. -/
theorem c1_counterexample :
    (clean cfgMd srcPng dstOrphanDir).2.2 = some .readDirFail ∧
    (build cfgMd 10 [] [] srcPng dstOrphanDir).2.2 = none ∧
    Event.create ["x.png"] ∈ (build cfgMd 10 [] [] srcPng dstOrphanDir).2.1
    := by
  refine ⟨by decide, by decide, by decide⟩

/-- C1 amended: `build` runs `clean` first and discards its result except
for the mutated destination tree; the error `build` returns is exactly the
source-walk's error over the cleaned tree, and the report lines are the
clean deletions followed by the walk's lines; `main` terminates the whole
run on the first site whose `build` errors (later sites are not
processed), and continues otherwise. -/
theorem c1_amended :
    (∀ (cfg : Config) (now : Nat) (faults wfaults : List Path)
      (src dst : Fs),
      build cfg now faults wfaults src dst =
        ((buildFold cfg now faults wfaults (sortPaths src)
            ⟨(clean cfg src dst).1,
             max (maxIno src) (maxIno (clean cfg src dst).1) + 1, []⟩).1.fs,
         (clean cfg src dst).2.1 ++
           (buildFold cfg now faults wfaults (sortPaths src)
            ⟨(clean cfg src dst).1,
             max (maxIno src) (maxIno (clean cfg src dst).1) + 1,
             []⟩).1.evs,
         (buildFold cfg now faults wfaults (sortPaths src)
            ⟨(clean cfg src dst).1,
             max (maxIno src) (maxIno (clean cfg src dst).1) + 1,
             []⟩).2)) ∧
    (∀ (cfg : Config) (now : Nat) (src dst : Fs) (rest : List (Fs × Fs))
      (e : Err),
      (build cfg now [] [] src dst).2.2 = some e →
      mainRun cfg now ((src, dst) :: rest) =
        ([((build cfg now [] [] src dst).1,
           (build cfg now [] [] src dst).2.1)], some e)) ∧
    (∀ (cfg : Config) (now : Nat) (src dst : Fs) (rest : List (Fs × Fs)),
      (build cfg now [] [] src dst).2.2 = none →
      mainRun cfg now ((src, dst) :: rest) =
        (((build cfg now [] [] src dst).1,
          (build cfg now [] [] src dst).2.1) :: (mainRun cfg now rest).1,
         (mainRun cfg now rest).2)) := by
  refine ⟨fun cfg now faults wfaults src dst => rfl, ?_, ?_⟩
  · intro cfg now src dst rest e h
    simp only [mainRun, h]
  · intro cfg now src dst rest h
    simp only [mainRun, h]

/-- C1 amended witness: a template-read failure on the first site stops
the run before the second site; an error-free build continues. -/
theorem c1_amended_witness :
    mainRun cfgNoTpl 10 [(srcOneMd, []), (srcPng, [])] =
      ([((build cfgNoTpl 10 [] [] srcOneMd []).1,
         (build cfgNoTpl 10 [] [] srcOneMd []).2.1)], some .tplRead) ∧
    mainRun cfgMd 10 [(srcPng, [])] =
      (((build cfgMd 10 [] [] srcPng []).1,
        (build cfgMd 10 [] [] srcPng []).2.1) :: (mainRun cfgMd 10 []).1,
       (mainRun cfgMd 10 []).2) :=
  ⟨c1_amended.2.1 cfgNoTpl 10 srcOneMd [] [(srcPng, [])] .tplRead (by decide),
   c1_amended.2.2 cfgMd 10 srcPng [] [] (by decide)⟩

/-- C2 counterexample: a destination stat that fails with a non-ENOENT
error makes the walk skip the entry silently — `build` returns nil and
reports nothing; an `os.WriteFile` failure inside `buildPage` is ignored —
`build` returns nil, the destination tree is unchanged, and the `+` line
is printed anyway. -/
theorem c2_counterexample :
    (build cfgMd 10 [["a.html"]] [] srcOneMd []).2.2 = none ∧
    (build cfgMd 10 [["a.html"]] [] srcOneMd []).2.1 = [] ∧
    (build cfgMd 10 [] [["a.html"]] srcOneMd []).2.2 = none ∧
    (build cfgMd 10 [] [["a.html"]] srcOneMd []).1 = [] ∧
    (build cfgMd 10 [] [["a.html"]] srcOneMd []).2.1 =
      [.create ["a.html"]] := by
  refine ⟨by decide, by decide, by decide, by decide, by decide⟩

/-- C2 amended: an error returned by the walk body (`MkdirAll`, `Link`,
`Remove`, template read) aborts the site's build immediately, leaving the
remaining entries unprocessed; but a destination-stat failure other than
non-existence makes the walk skip that entry with no error, and a
`WriteFile` failure is discarded (the create line is still reported and
processing continues). -/
theorem c2_amended :
    (∀ (cfg : Config) (now : Nat) (faults wfaults : List Path)
      (st : BState) (p : Path) (sIno sM : Nat)
      (rest : List (Path × Meta)),
      buildEq cfg p ∈ faults →
      buildFold cfg now faults wfaults ((p, .file sIno sM) :: rest) st =
        buildFold cfg now faults wfaults rest st) ∧
    (∀ (cfg : Config) (now : Nat) (faults wfaults : List Path)
      (st : BState) (p : Path) (sIno sM : Nat)
      (rest : List (Path × Meta)),
      cfg.tplOk = true → extOf (lastName p) = cfg.ext →
      buildEq cfg p ∉ faults → fsGet st.fs (buildEq cfg p) = none →
      buildEq cfg p ∈ wfaults →
      buildFold cfg now faults wfaults ((p, .file sIno sM) :: rest) st =
        buildFold cfg now faults wfaults rest
          { st with evs := st.evs ++ [.create (buildEq cfg p)] }) ∧
    (∀ (cfg : Config) (now : Nat) (faults wfaults : List Path)
      (st st2 : BState) (e : Path × Meta) (er : Err)
      (rest : List (Path × Meta)),
      buildStep cfg now faults wfaults st e = .error (er, st2) →
      buildFold cfg now faults wfaults (e :: rest) st = (st2, some er)) := by
  refine ⟨?_, ?_, ?_⟩
  · intro cfg now faults wfaults st p sIno sM rest hmem
    rw [buildFold_cons]
    have hstep : buildStep cfg now faults wfaults st (p, .file sIno sM) =
        .ok st := by
      rw [buildStep_file]
      by_cases hext : extOf (lastName p) = cfg.ext
      · rw [if_pos hext]
        have hsd : statDst st.fs faults (buildEq cfg p) = .eother := by
          unfold statDst
          rw [if_pos hmem]
        simp only [hsd]
      · rw [if_neg hext]
        have hmem2 : p ∈ faults := by
          rw [← buildEq_ne hext]
          exact hmem
        have hsd : statDst st.fs faults p = .eother := by
          unfold statDst
          rw [if_pos hmem2]
        simp only [hsd]
    simp only [hstep]
  · intro cfg now faults wfaults st p sIno sM rest htpl hext hnf hget hwf
    rw [buildFold_cons]
    have hstep : buildStep cfg now faults wfaults st (p, .file sIno sM) =
        .ok { st with evs := st.evs ++ [.create (buildEq cfg p)] } := by
      rw [buildStep_file, if_pos hext]
      have hsd : statDst st.fs faults (buildEq cfg p) = .enoent := by
        unfold statDst
        rw [if_neg hnf]
        simp only [hget]
      simp only [hsd]
      rw [if_pos htpl, if_pos hwf]
    simp only [hstep]
  · intro cfg now faults wfaults st st2 e er rest h
    rw [buildFold_cons]
    simp only [h]

/-- C2 amended witness: the three behaviours at concrete inputs. -/
theorem c2_amended_witness :
    buildFold cfgMd 10 [["a.html"]] [] [(["a.md"], .file 1 5)] ⟨[], 1, []⟩ =
      buildFold cfgMd 10 [["a.html"]] [] [] ⟨[], 1, []⟩ ∧
    buildFold cfgMd 10 [] [["a.html"]] [(["a.md"], .file 1 5)] ⟨[], 1, []⟩ =
      buildFold cfgMd 10 [] [["a.html"]] []
        ⟨[], 1, [] ++ [.create ["a.html"]]⟩ ∧
    buildFold cfgNoTpl 10 [] [] [(["a.md"], .file 1 5)] ⟨[], 1, []⟩ =
      (⟨[], 1, []⟩, some .tplRead) := by
  refine ⟨?_, ?_, ?_⟩
  · exact c2_amended.1 cfgMd 10 [["a.html"]] [] ⟨[], 1, []⟩ ["a.md"] 1 5 []
      (by decide)
  · have h := c2_amended.2.1 cfgMd 10 [] [["a.html"]] ⟨[], 1, []⟩ ["a.md"]
      1 5 [] rfl (by decide) (by decide) rfl (by decide)
    exact h
  · exact c2_amended.2.2 cfgNoTpl 10 [] [] ⟨[], 1, []⟩ ⟨[], 1, []⟩
      (["a.md"], .file 1 5) .tplRead [] rfl

/-- C9 counterexample: with an orphan directory `a` followed in walk
order by an orphan file `b.png`, `clean` deletes the directory, aborts
with the `ReadDir` error, and never examines `b.png`, which survives —
contradicting the claim that deletions do not affect the traversal and
that `clean` completes without error. -/
theorem c9_counterexample :
    clean cfgMd [] dstOrphanBoth =
      ([(["b.png"], .file 2 0)], [.delTree ["a"]], some .readDirFail) := by
  decide

/-- C9 amended: as long as no directory is deleted, `clean` examines every
destination entry exactly once, keeps exactly the entries whose per-entry
check passes, reports one deletion line per removed file, and completes
without error; deleting a directory removes its subtree but aborts the
walk with the `ReadDir` error, leaving the remaining entries unexamined.
-/
theorem c9_amended :
    (∀ (cfg : Config) (src : Fs) (l : List (Path × Meta)),
      (∀ e ∈ l, e.2.isDir = true → cleanDecide cfg src e.1 e.2 = .keep) →
      cleanFold cfg src l =
        (l.filter (fun e => cleanDecide cfg src e.1 e.2 = CleanAct.keep),
         (l.filter
           (fun e => ¬ cleanDecide cfg src e.1 e.2 = CleanAct.keep)).map
           (fun e => Event.delFile e.1),
         none)) ∧
    (∀ (cfg : Config) (src : Fs) (p : Path) (m : Meta)
      (rest : List (Path × Meta)),
      cleanDecide cfg src p m = .delTree →
      cleanFold cfg src ((p, m) :: rest) =
        (rest.filter (fun e => ¬ p <+: e.1), [.delTree p],
         some .readDirFail)) := by
  refine ⟨fun cfg src l h => cleanFold_filter h, ?_⟩
  intro cfg src p m rest h
  simp only [cleanFold, h]

/-- C9 amended witness: the filter characterization on a concrete
destination list with one orphan file, and the abort equation on the
orphan directory. -/
theorem c9_amended_witness :
    cleanFold cfgMd srcW [(["b.png"], .file 3 5), (["gone.png"], .file 9 0)]
      = ([(["b.png"], .file 3 5)], [.delFile ["gone.png"]], none) ∧
    cleanFold cfgMd [] [(["a"], .dir 1 0), (["b.png"], .file 2 0)] =
      ([(["b.png"], .file 2 0)], [.delTree ["a"]], some .readDirFail) := by
  constructor
  · have h := c9_amended.1 cfgMd srcW
      [(["b.png"], .file 3 5), (["gone.png"], .file 9 0)]
      (by decide)
    rw [h]
    decide
  · exact c9_amended.2 cfgMd [] ["a"] (.dir 1 0) [(["b.png"], .file 2 0)]
      (by decide)

/-- C5: for a source file whose extension equals the configured content
extension, the walk body invokes the page build and writes the mapped
`.html` destination exactly when that destination is absent (reported `+`)
or the source modification time is strictly later (reported `^`, keeping
the destination inode); otherwise the entry is left untouched with no
report line. -/
theorem c5_content_staleness (cfg : Config) (now : Nat) (st : BState)
    (p : Path) (sIno sM : Nat) (htpl : cfg.tplOk = true)
    (hext : extOf (lastName p) = cfg.ext) :
    (fsGet st.fs (buildEq cfg p) = none →
      buildStep cfg now [] [] st (p, .file sIno sM) =
        .ok ⟨fsSet st.fs (buildEq cfg p) (.file st.nextIno now),
             st.nextIno + 1, st.evs ++ [.create (buildEq cfg p)]⟩) ∧
    (∀ dm, fsGet st.fs (buildEq cfg p) = some dm →
      (sM > dm.mtime →
        buildStep cfg now [] [] st (p, .file sIno sM) =
          .ok ⟨(writeOver now st (buildEq cfg p) dm).fs, st.nextIno,
               st.evs ++ [.update (buildEq cfg p)]⟩) ∧
      (¬ sM > dm.mtime →
        buildStep cfg now [] [] st (p, .file sIno sM) = .ok st)) := by
  constructor
  · intro hget
    rw [buildStep_file, if_pos hext, statDst_nil]
    simp only [hget]
    rw [if_pos htpl, if_neg (List.not_mem_nil (buildEq cfg p))]
    rfl
  · intro dm hget
    constructor
    · intro hstale
      rw [buildStep_file, if_pos hext, statDst_nil]
      simp only [hget]
      rw [if_pos hstale, if_pos htpl,
        if_neg (List.not_mem_nil (buildEq cfg p)), writeOver_nextIno,
        writeOver_evs]
    · intro hstale
      rw [buildStep_file, if_pos hext, statDst_nil]
      simp only [hget]
      rw [if_neg hstale]

/-- C5 witness: the three behaviours at a concrete content file — absent
destination (create), stale destination (update), fresh destination (no
action). -/
theorem c5_content_staleness_witness :
    buildStep cfgMd 10 [] [] ⟨[], 7, []⟩ (["a.md"], .file 1 5) =
      .ok ⟨fsSet [] ["a.html"] (.file 7 10), 8, [.create ["a.html"]]⟩ ∧
    buildStep cfgMd 10 [] [] ⟨[(["a.html"], .file 4 2)], 7, []⟩
      (["a.md"], .file 1 5) =
      .ok ⟨(writeOver 10 ⟨[(["a.html"], .file 4 2)], 7, []⟩ ["a.html"]
        (.file 4 2)).fs, 7, [.update ["a.html"]]⟩ ∧
    buildStep cfgMd 10 [] [] ⟨[(["a.html"], .file 4 9)], 7, []⟩
      (["a.md"], .file 1 5) = .ok ⟨[(["a.html"], .file 4 9)], 7, []⟩ := by
  refine ⟨?_, ?_, ?_⟩
  · exact (c5_content_staleness cfgMd 10 ⟨[], 7, []⟩ ["a.md"] 1 5 rfl
      (by decide)).1 (by decide)
  · exact ((c5_content_staleness cfgMd 10 ⟨[(["a.html"], .file 4 2)], 7, []⟩
      ["a.md"] 1 5 rfl (by decide)).2 (.file 4 2) (by decide)).1 (by decide)
  · exact ((c5_content_staleness cfgMd 10 ⟨[(["a.html"], .file 4 9)], 7, []⟩
      ["a.md"] 1 5 rfl (by decide)).2 (.file 4 9) (by decide)).2 (by decide)

/-- C8 counterexample: a source resource named `logo.html` never reaches a
fixed point — on the second run `clean` maps the linked `logo.html` back
to `logo.md`, finds no source, deletes the link (`-`), and the build
re-creates it (`+`): the second run does not produce zero events. -/
theorem c8_counterexample :
    (build cfgMd 10 [] [] srcHtmlRes
      (build cfgMd 10 [] [] srcHtmlRes []).1).2.1 =
      [.delFile ["logo.html"], .create ["logo.html"]] := by
  decide

/-- C8 amended: on a well-formed source/destination pair — readable
template, duplicate-free rooted trees, coherent hard-link inodes, no
future source modification times, an injective source-to-destination path
mapping, no source file with the `.html` extension, no orphan destination
directory, and no destination built document aliasing a source inode or
shadowing a source directory — the first clean-and-build pass completes
without error, and a second pass produces zero create, update and delete
events, returns no error, and leaves the destination tree unchanged (the
same set of bindings). -/
theorem c8_amended (cfg : Config) (now : Nat) (src dst : Fs)
    (hwf : WellFormed cfg now src dst) :
    (build cfg now [] [] src dst).2.2 = none ∧
    (build cfg now [] [] src (build cfg now [] [] src dst).1).2.1 = [] ∧
    (build cfg now [] [] src (build cfg now [] [] src dst).1).2.2 = none ∧
    ((build cfg now [] [] src
      (build cfg now [] [] src dst).1).1).Perm
      (build cfg now [] [] src dst).1 := by
  obtain ⟨htpl, hnds, hndd, hneS, hpar, hinoS, hcross, hmt, himg, hh7,
    hd8, hh9⟩ := hwf
  have hdirkeep : ∀ e ∈ sortPaths dst, e.2.isDir = true →
      cleanDecide cfg src e.1 e.2 = .keep := by
    intro e hes hd
    have hed : e ∈ dst := (sortPaths_perm dst).mem_iff.mp hes
    obtain ⟨q, m⟩ := e
    match m, hd with
    | .dir i t, _ =>
      exact cleanDecide_keep_of_srcDir (hd8 (q, .dir i t) hed rfl) i t
    | .file _ _, hd => exact Bool.noConfusion hd
  have hcl1 : clean cfg src dst =
      ((sortPaths dst).filter
        (fun e => cleanDecide cfg src e.1 e.2 = CleanAct.keep),
       ((sortPaths dst).filter
         (fun e => ¬ cleanDecide cfg src e.1 e.2 = CleanAct.keep)).map
         (fun e => Event.delFile e.1),
       none) := cleanFold_filter hdirkeep
  set F := (sortPaths dst).filter
    (fun e => cleanDecide cfg src e.1 e.2 = CleanAct.keep) with hFdef
  have hFdst : ∀ f ∈ F, f ∈ dst := by
    intro f hf
    exact (sortPaths_perm dst).mem_iff.mp (List.mem_filter.mp hf).1
  have hFkeep : ∀ f ∈ F, cleanDecide cfg src f.1 f.2 = .keep := by
    intro f hf
    exact of_decide_eq_true (List.mem_filter.mp hf).2
  have hInv0 : BuildInv cfg src ⟨F, max (maxIno src) (maxIno F) + 1, []⟩ := by
    refine ⟨?_, hFkeep, ?_, ?_, ?_, ?_, ?_, ?_⟩
    · exact List.Nodup.sublist
        (List.Sublist.map Prod.fst (List.filter_sublist _))
        (((sortPaths_perm dst).map Prod.fst).nodup_iff.mpr hndd)
    · intro f hf hff
      obtain ⟨q, m⟩ := f
      match m, hff with
      | .file dIno dM, _ =>
        by_cases hh : extOf (lastName q) = ".html"
        · exact (hh9 (q, .file dIno dM) (hFdst _ hf) rfl hh).2
        · have hk := hFkeep (q, .file dIno dM) hf
          match hg : fsGet src (cleanEq cfg q) with
          | none =>
            rw [cleanDecide_file_none hg dIno dM] at hk
            exact CleanAct.noConfusion hk
          | some sm =>
            rw [cleanDecide_file_eq hg dIno dM] at hk
            have hino : sm.ino = dIno := by
              by_contra hne2
              rw [if_pos ⟨hh, hne2⟩] at hk
              exact CleanAct.noConfusion hk
            rw [cleanEq_ne hh] at hg
            by_cases hsd : isSrcDirB src q = true
            · obtain ⟨i2, t2, hg2⟩ := isSrcDirB_iff.mp hsd
              rw [hg2] at hg
              cases Option.some.inj hg
              have hc := hcross (q, .dir i2 t2) (mem_of_fsGet_eq_some hg2)
                (q, .file dIno dM) (hFdst _ hf)
                (by show i2 = dIno; exact hino)
              exact Bool.noConfusion hc.1
            · exact Bool.eq_false_iff.mpr (fun hc => hsd hc)
      | .dir _ _, hff => exact Bool.noConfusion hff
    · intro f hf hfd
      obtain ⟨q, m⟩ := f
      match m, hfd with
      | .dir i t, _ => exact hd8 (q, .dir i t) (hFdst _ hf) rfl
      | .file _ _, hfd => exact Bool.noConfusion hfd
    · intro f hf s hs heq
      have h := hcross s hs f (hFdst _ hf) heq.symm
      exact ⟨h.2.1, h.1, h.2.2.symm⟩
    · intro f hf
      have h1 : f.2.ino ≤ maxIno F := ino_le_maxIno hf
      have h2 : maxIno F ≤ max (maxIno src) (maxIno F) := le_max_right _ _
      show f.2.ino < max (maxIno src) (maxIno F) + 1
      omega
    · intro s hs
      have h1 : s.2.ino ≤ maxIno src := ino_le_maxIno hs
      have h2 : maxIno src ≤ max (maxIno src) (maxIno F) := le_max_left _ _
      show s.2.ino < max (maxIno src) (maxIno F) + 1
      omega
    · intro f hf hff hhtml s hs
      exact (hh9 f (hFdst _ hf) hff hhtml).1 s hs
  have hmemS : ∀ e ∈ sortPaths src, e ∈ src :=
    fun e he => (sortPaths_perm src).mem_iff.mp he
  have hpwS : (sortPaths src).Pairwise
      (fun a b => dstPathOf cfg a ≠ dstPathOf cfg b) := by
    rwa [List.Perm.pairwise_iff (fun hab hba => hab hba.symm)
      (sortPaths_perm src)]
  obtain ⟨st2, hfold1, hInv2, hsyncL, _⟩ := buildFold_ok cfg now hnds hneS
    hpar hinoS hmt himg hh7 htpl (sortPaths src)
    ⟨F, max (maxIno src) (maxIno F) + 1, []⟩ hmemS hpwS hInv0
  have hkey1 : buildFold cfg now [] [] (sortPaths src)
      ⟨(clean cfg src dst).1,
       max (maxIno src) (maxIno (clean cfg src dst).1) + 1, []⟩ =
      (st2, none) := by
    rw [hcl1]
    exact hfold1
  have hb1err : (build cfg now [] [] src dst).2.2 = none := by
    show (buildFold cfg now [] [] (sortPaths src)
      ⟨(clean cfg src dst).1,
       max (maxIno src) (maxIno (clean cfg src dst).1) + 1, []⟩).2 = none
    rw [hkey1]
  have hb1fs : (build cfg now [] [] src dst).1 = st2.fs := by
    show (buildFold cfg now [] [] (sortPaths src)
      ⟨(clean cfg src dst).1,
       max (maxIno src) (maxIno (clean cfg src dst).1) + 1, []⟩).1.fs =
      st2.fs
    rw [hkey1]
  obtain ⟨hN2, hK2, hI3b, hI4b, hI5b, hI6b, hI7b, hI8b⟩ := hInv2
  have hsync : ∀ s ∈ src, SyncedEntry cfg st2.fs s :=
    fun s hs => hsyncL s ((sortPaths_perm src).mem_iff.mpr hs)
  have hcl2 : clean cfg src st2.fs = (sortPaths st2.fs, [], none) :=
    cleanFold_keepAll
      (fun e he => hK2 e ((sortPaths_perm st2.fs).mem_iff.mp he))
  have hsync2 : ∀ s ∈ src, SyncedEntry cfg (sortPaths st2.fs) s := by
    intro s hs
    refine syncedEntry_congr (fun q => ?_) (hsync s hs)
    exact fsGet_perm (sortPaths_perm st2.fs).symm hN2 q
  have hfold2 : buildFold cfg now [] [] (sortPaths src)
      ⟨sortPaths st2.fs,
       max (maxIno src) (maxIno (sortPaths st2.fs)) + 1, []⟩ =
      (⟨sortPaths st2.fs,
        max (maxIno src) (maxIno (sortPaths st2.fs)) + 1, []⟩, none) :=
    buildFold_noop cfg now hnds hpar (sortPaths src) _ hmemS hsync2
  have hkey2 : buildFold cfg now [] [] (sortPaths src)
      ⟨(clean cfg src st2.fs).1,
       max (maxIno src) (maxIno (clean cfg src st2.fs).1) + 1, []⟩ =
      (⟨sortPaths st2.fs,
        max (maxIno src) (maxIno (sortPaths st2.fs)) + 1, []⟩, none) := by
    rw [hcl2]
    exact hfold2
  refine ⟨hb1err, ?_, ?_, ?_⟩
  · rw [hb1fs]
    show (clean cfg src st2.fs).2.1 ++
      (buildFold cfg now [] [] (sortPaths src)
        ⟨(clean cfg src st2.fs).1,
         max (maxIno src) (maxIno (clean cfg src st2.fs).1) + 1, []⟩).1.evs
      = []
    rw [hkey2, hcl2]
    rfl
  · rw [hb1fs]
    show (buildFold cfg now [] [] (sortPaths src)
      ⟨(clean cfg src st2.fs).1,
       max (maxIno src) (maxIno (clean cfg src st2.fs).1) + 1, []⟩).2 = none
    rw [hkey2]
  · rw [hb1fs]
    show ((buildFold cfg now [] [] (sortPaths src)
      ⟨(clean cfg src st2.fs).1,
       max (maxIno src) (maxIno (clean cfg src st2.fs).1) + 1,
       []⟩).1.fs).Perm st2.fs
    rw [hkey2]
    exact sortPaths_perm st2.fs

/-- C8 amended witness: on the concrete well-formed source tree `srcW`
(a directory, a content file, a resource) and an empty destination, the
first pass errors nowhere and the second pass is a no-op. -/
theorem c8_amended_witness :
    (build cfgMd 10 [] [] srcW []).2.2 = none ∧
    (build cfgMd 10 [] [] srcW (build cfgMd 10 [] [] srcW []).1).2.1 = [] ∧
    (build cfgMd 10 [] [] srcW (build cfgMd 10 [] [] srcW []).1).2.2 =
      none ∧
    ((build cfgMd 10 [] [] srcW
      (build cfgMd 10 [] [] srcW []).1).1).Perm
      (build cfgMd 10 [] [] srcW []).1 :=
  c8_amended cfgMd 10 srcW [] (by decide)

end Swb
